import Mathlib

/-!
Verification development for the `dictlens` repository: a restricted
JSONPath-like path matcher and a recursive structural comparator for nested
records with per-field numeric tolerances and ignore rules.

The repository ships only the test suite and a development setup script; the
core module `dictlens/core.py` (functions `compare_dicts` and
`_validate_pattern`) is not part of the sources available here.  All
definitions below that embed that core are therefore modelled from the
specification document, with the test suite fixing interface details
(the error message "Invalid JSONPath-like pattern ...", the keyword
parameters of `compare_dicts`).  Machine floats are modelled as exact
rationals, Python dicts as insertion-ordered association lists.
-/

namespace Dictlens

/-- Modelled from the spec: a path segment (spec section 3, Path).  Concrete
traversal paths use only `field` and `index` segments; validated patterns may
additionally contain the wildcard index `[*]` and the recursive-descent
marker `..name`. -/
inductive Seg where
  | field : String → Seg
  | index : Nat → Seg
  | wildcard : Seg
  | descent : String → Seg
deriving DecidableEq, Repr

/-- Characters allowed in a field-name identifier of a pattern. -/
def isIdentChar (c : Char) : Bool := c.isAlphanum || c == '_'

/-- Numeric value of a list of decimal digit characters. -/
def digitsToNat (ds : List Char) : Nat := ds.foldl (fun n c => n * 10 + (c.toNat - 48)) 0

/-- Longest prefix of characters satisfying a predicate, with the remainder. -/
def spanChars (q : Char → Bool) : List Char → List Char × List Char
  | [] => ([], [])
  | c :: cs =>
    if q c then
      let sp := spanChars q cs
      (c :: sp.1, sp.2)
    else ([], c :: cs)

/-- Modelled from the spec: the segment grammar of `_validate_pattern`
(spec section 4.1), as a fuel-indexed tokenizer over the characters after the
leading root marker.  A segment is `.name`, `..name`, `[*]`, or `[digits]`;
filters `[?...]`, slices `[a:b]` and unions `[a,b]` fail because bracket
contents must be digits or a lone star.  The fuel argument only makes the
recursion structural; every step consumes at least one character, so the
input length, which every caller passes, is always enough fuel. -/
def parseSegsF : Nat → List Char → Option (List Seg)
  | _, [] => some []
  | 0, _ :: _ => none
  | f + 1, c :: cs =>
    if c == '.' then
      if cs.head? == some '.' then
        if (spanChars isIdentChar cs.tail).1.isEmpty then none
        else (parseSegsF f (spanChars isIdentChar cs.tail).2).map
          (fun segs => Seg.descent (String.mk (spanChars isIdentChar cs.tail).1) :: segs)
      else
        if (spanChars isIdentChar cs).1.isEmpty then none
        else (parseSegsF f (spanChars isIdentChar cs).2).map
          (fun segs => Seg.field (String.mk (spanChars isIdentChar cs).1) :: segs)
    else if c == '[' then
      if cs.head? == some '*' then
        if cs.tail.head? == some ']' then
          (parseSegsF f cs.tail.tail).map (fun segs => Seg.wildcard :: segs)
        else none
      else
        if (spanChars (fun d => d.isDigit) cs).1.isEmpty then none
        else
          if (spanChars (fun d => d.isDigit) cs).2.head? == some ']' then
            (parseSegsF f (spanChars (fun d => d.isDigit) cs).2.tail).map
              (fun segs => Seg.index (digitsToNat (spanChars (fun d => d.isDigit) cs).1) :: segs)
          else none
    else none

/-- Modelled from the spec: parse a pattern string into its segments.  The
pattern must start with the root marker; the rest is the segment grammar. -/
def parsePattern (s : String) : Option (List Seg) :=
  if s.data.head? == some '$' then parseSegsF s.data.tail.length s.data.tail else none

/-- A pattern string is valid when it parses under the restricted grammar. -/
def validPattern (s : String) : Bool := (parsePattern s).isSome

/-- The error message used by the missing core for an invalid pattern; the
test suite pins it down (`pytest.raises(ValueError, match="Invalid
JSONPath-like pattern")`), and it names the offending pattern. -/
def invalidMsg (s : String) : String := "Invalid JSONPath-like pattern: " ++ s

/-- Modelled from the spec: `_validate_pattern` (spec section 4.1), returning
unit or the `InvalidPatternError` message carrying the offending pattern. -/
def validate_pattern (s : String) : Except String Unit :=
  if validPattern s then Except.ok () else Except.error (invalidMsg s)

/-- Modelled from the spec: `matches` (spec section 4.1) on parsed segments.
Field and index segments match exactly by kind and content, `[*]` matches any
single index segment, and a recursive-descent segment matches its name as a
field segment at any depth of the concrete path, the remaining pattern
segments (if any) continuing to match from that depth.  When no pattern
segments remain after the descent segment — the common single-segment case
`$..z` — any path ending in, or passing through, a matching field matches, so
whatever follows the matched field on the concrete path is accepted. -/
def segMatches : List Seg → List Seg → Bool
  | [], [] => true
  | Seg.field n :: ps, Seg.field m :: cs => n == m && segMatches ps cs
  | Seg.index i :: ps, Seg.index j :: cs => i == j && segMatches ps cs
  | Seg.wildcard :: ps, Seg.index _ :: cs => segMatches ps cs
  | Seg.descent n :: [], Seg.field m :: cs =>
      (n == m) || segMatches [Seg.descent n] cs
  | Seg.descent n :: p0 :: ps, Seg.field m :: cs =>
      (n == m && segMatches (p0 :: ps) cs) || segMatches (Seg.descent n :: p0 :: ps) cs
  | Seg.descent n :: ps, Seg.index _ :: cs => segMatches (Seg.descent n :: ps) cs
  | _, _ => false

/-- Continuation condition after a matched descent segment: the remaining
pattern segments, if any, must match the remaining path; an empty remainder
accepts any remaining path (ending in, or passing through). -/
def descTailOk (ps rest : List Seg) : Bool :=
  match ps with
  | [] => true
  | _ :: _ => segMatches ps rest

/-- Modelled from the spec: `matches` on a pattern string and a concrete
path.  Matching against an invalid pattern is undefined by contract; this
model returns `false` there. -/
def matchesStr (s : String) (p : List Seg) : Bool :=
  match parsePattern s with
  | some ps => segMatches ps p
  | none => false

mutual

/-- Modelled from the spec: the Value data model (spec section 3), a tagged
union over mappings, sequences, numbers (int or float), booleans, strings and
null.  Mappings are insertion-ordered association lists, as Python dicts are;
floats are modelled as exact rationals. -/
inductive Value where
  | vMap : Fields → Value
  | vSeq : Elems → Value
  | vInt : Int → Value
  | vFloat : Rat → Value
  | vBool : Bool → Value
  | vStr : String → Value
  | vNull : Value

/-- The entries of a mapping value, in insertion order. -/
inductive Fields where
  | fnil : Fields
  | fcons : String → Value → Fields → Fields

/-- The elements of a sequence value, in order. -/
inductive Elems where
  | enil : Elems
  | econs : Value → Elems → Elems

end

/-- The entries of a mapping as a plain list, for statements and lemmas. -/
def toListF : Fields → List (String × Value)
  | Fields.fnil => []
  | Fields.fcons k v rest => (k, v) :: toListF rest

/-- The elements of a sequence as a plain list, for statements and lemmas. -/
def toListE : Elems → List Value
  | Elems.enil => []
  | Elems.econs v rest => v :: toListE rest

/-- Build mapping entries from a plain list, for concrete examples. -/
def fieldsOf : List (String × Value) → Fields
  | [] => Fields.fnil
  | (k, v) :: rest => Fields.fcons k v (fieldsOf rest)

/-- Build sequence elements from a plain list, for concrete examples. -/
def elemsOf : List Value → Elems
  | [] => Elems.enil
  | v :: rest => Elems.econs v (elemsOf rest)

/-- The kind of a value; both numeric constructors share one kind (spec
section 4.2 step 2). -/
inductive Kind where
  | kMap | kSeq | kNum | kBool | kStr | kNull
deriving DecidableEq, Repr

/-- Kind of a value. -/
def kindOf : Value → Kind
  | Value.vMap _ => Kind.kMap
  | Value.vSeq _ => Kind.kSeq
  | Value.vInt _ => Kind.kNum
  | Value.vFloat _ => Kind.kNum
  | Value.vBool _ => Kind.kBool
  | Value.vStr _ => Kind.kStr
  | Value.vNull => Kind.kNull

/-- Name of a kind, for trace messages. -/
def kindName : Kind → String
  | Kind.kMap => "mapping"
  | Kind.kSeq => "sequence"
  | Kind.kNum => "number"
  | Kind.kBool => "boolean"
  | Kind.kStr => "string"
  | Kind.kNull => "null"

/-- Numeric content of a value, when it is numeric. -/
def toNum : Value → Option Rat
  | Value.vInt n => some (n : Rat)
  | Value.vFloat q => some q
  | _ => none

/-- String membership in a list. -/
def containsStr (k : String) : List String → Bool
  | [] => false
  | x :: xs => (k == x) || containsStr k xs

/-- Keys of a mapping, in insertion order. -/
def keysOfF : Fields → List String
  | Fields.fnil => []
  | Fields.fcons k _ rest => k :: keysOfF rest

/-- Whether a mapping has an entry for a key. -/
def containsKeyF : Fields → String → Bool
  | Fields.fnil, _ => false
  | Fields.fcons k _ rest, key => (k == key) || containsKeyF rest key

/-- First entry for a key, defaulting to null (only consulted for keys in
both mappings, where the default is never used). -/
def lookupDF : Fields → String → Value
  | Fields.fnil, _ => Value.vNull
  | Fields.fcons k v rest, key => if k == key then v else lookupDF rest key

/-- Number of elements of a sequence. -/
def elen : Elems → Nat
  | Elems.enil => 0
  | Elems.econs _ rest => elen rest + 1

/-- No duplicates in a key list. -/
def nodupKeys : List String → Bool
  | [] => true
  | k :: ks => (!containsStr k ks) && nodupKeys ks

/-- Equality of two key lists as sets (Python compares `set(a) == set(b)`). -/
def keySetEq (ka kb : List String) : Bool :=
  ka.all (fun k => containsStr k kb) && kb.all (fun k => containsStr k ka)

mutual

/-- Well-formedness of a value: mapping keys are duplicate-free at every
depth.  This is automatic for values coming from Python dicts. -/
def wf : Value → Bool
  | Value.vMap fs => nodupKeys (keysOfF fs) && wfFields fs
  | Value.vSeq xs => wfElems xs
  | Value.vInt _ => true
  | Value.vFloat _ => true
  | Value.vBool _ => true
  | Value.vStr _ => true
  | Value.vNull => true

/-- Well-formedness of all values of a mapping. -/
def wfFields : Fields → Bool
  | Fields.fnil => true
  | Fields.fcons _ v rest => wf v && wfFields rest

/-- Well-formedness of all elements of a sequence. -/
def wfElems : Elems → Bool
  | Elems.enil => true
  | Elems.econs v rest => wf v && wfElems rest

end

/-- Modelled from the spec: the rule set of one comparison call (spec
section 3): ignore patterns, flat ignore field names, global tolerances and
per-pattern tolerance overrides.  The override maps are insertion-ordered
association lists, matching Python dict iteration order. -/
structure Rules where
  ignore_paths : List String
  ignore_fields : List String
  abs_tol : Rat
  rel_tol : Rat
  abs_tol_fields : List (String × Rat)
  rel_tol_fields : List (String × Rat)

/-- The default rule set of `compare_dicts`: empty rule collections and
zero global tolerances. -/
def defaultRules : Rules :=
  { ignore_paths := [], ignore_fields := [], abs_tol := 0, rel_tol := 0,
    abs_tol_fields := [], rel_tol_fields := [] }

/-- All patterns supplied in a rule set, in validation order. -/
def allPatterns (R : Rules) : List String :=
  R.ignore_paths ++ R.abs_tol_fields.map (fun kv => kv.1) ++ R.rel_tol_fields.map (fun kv => kv.1)

/-- Modelled from the spec: effective tolerance resolution (spec section 4.2
step 5): the first pattern in iteration order of the override map that
matches the concrete path wins, else the global tolerance. -/
def resolveTol (fields : List (String × Rat)) (global : Rat) (p : List Seg) : Rat :=
  match fields.find? (fun kv => matchesStr kv.1 p) with
  | some kv => kv.2
  | none => global

/-- Final field name of a concrete path, if its last segment is a field. -/
def lastFieldName : List Seg → Option String
  | [] => none
  | [Seg.field n] => some n
  | [_] => none
  | _ :: rest => lastFieldName rest

/-- Modelled from the spec: the ignore check (spec section 4.2 step 1): the
path's final field name is in the flat ignore set, or the path matches some
ignore pattern. -/
def ignoredAt (R : Rules) (p : List Seg) : Bool :=
  (match lastFieldName p with
   | some n => containsStr n R.ignore_fields
   | none => false)
  || R.ignore_paths.any (fun s => matchesStr s p)

/-- Render one segment of a concrete path as in `$.a.b[0].c`. -/
def renderSeg : Seg → String
  | Seg.field n => "." ++ n
  | Seg.index i => "[" ++ toString i ++ "]"
  | Seg.wildcard => "[*]"
  | Seg.descent n => ".." ++ n

/-- Render a list of segments. -/
def renderSegsStr : List Seg → String
  | [] => ""
  | s :: rest => renderSeg s ++ renderSegsStr rest

/-- Render a concrete path, starting at the root marker. -/
def renderPath (p : List Seg) : String := "$" ++ renderSegsStr p

/-- Shallow rendering of a value for trace messages. -/
def showVal : Value → String
  | Value.vMap _ => "mapping"
  | Value.vSeq _ => "sequence"
  | Value.vInt n => toString n
  | Value.vFloat q => toString q.num ++ "/" ++ toString q.den
  | Value.vBool b => toString b
  | Value.vStr s => s
  | Value.vNull => "null"

/-- Trace message for an ignored path. -/
def ignoredMsg (p : List Seg) : String := "ignored path " ++ renderPath p

/-- Trace message for a type mismatch, naming both kinds. -/
def typeMsg (p : List Seg) (va vb : Value) : String :=
  "type mismatch at " ++ renderPath p ++ ": " ++ kindName (kindOf va) ++ " vs " ++ kindName (kindOf vb)

/-- Trace message for a key-set mismatch, listing the symmetric difference. -/
def keysMsg (p : List Seg) (fs gs : Fields) : String :=
  "key mismatch at " ++ renderPath p
    ++ " left-only " ++ renderSegsStr (((keysOfF fs).filter (fun k => !containsStr k (keysOfF gs))).map Seg.field)
    ++ " right-only " ++ renderSegsStr (((keysOfF gs).filter (fun k => !containsStr k (keysOfF fs))).map Seg.field)

/-- Trace message for a sequence length mismatch, reporting both lengths. -/
def lenMsg (p : List Seg) (la lb : Nat) : String :=
  "length mismatch at " ++ renderPath p ++ ": " ++ toString la ++ " vs " ++ toString lb

/-- Trace message for a numeric mismatch, reporting values and tolerances. -/
def numMsg (p : List Seg) (x y aT rT : Rat) : String :=
  "numeric mismatch at " ++ renderPath p ++ ": " ++ showVal (Value.vFloat x) ++ " vs "
    ++ showVal (Value.vFloat y) ++ " abs " ++ showVal (Value.vFloat aT) ++ " rel " ++ showVal (Value.vFloat rT)

/-- Trace message for a scalar mismatch, reporting both values. -/
def valMsg (p : List Seg) (va vb : Value) : String :=
  "value mismatch at " ++ renderPath p ++ ": " ++ showVal va ++ " vs " ++ showVal vb

/-- Exact equality of non-numeric scalar leaves (spec section 4.2 step 6). -/
def scalarEq : Value → Value → Bool
  | Value.vStr s, Value.vStr t => s == t
  | Value.vBool x, Value.vBool y => x == y
  | Value.vNull, Value.vNull => true
  | _, _ => false

/-- Combined tolerance acceptance for two numbers (spec section 4.2 step 5):
equal when the difference is at most the larger of the absolute tolerance and
the relative tolerance scaled by the larger magnitude. -/
def numWithin (aT rT x y : Rat) : Prop := |x - y| ≤ max aT (rT * max |x| |y|)

instance (aT rT x y : Rat) : Decidable (numWithin aT rT x y) := by
  unfold numWithin; infer_instance

mutual

/-- Modelled from the spec: one node of the recursive comparison of
`compare_dicts` (spec section 4.2 steps 1-6), returning the node verdict and
the trace messages the node emits.  Order of checks: ignore, type, mapping,
sequence, numeric leaf, scalar leaf. -/
def cmpNode (R : Rules) (p : List Seg) (va : Value) (vb : Value) : Bool × List String :=
    if ignoredAt R p then (true, [ignoredMsg p])
    else if kindOf va = kindOf vb then
      match va, vb with
      | Value.vMap fs, Value.vMap gs =>
        (keySetEq (keysOfF fs) (keysOfF gs) && (cmpFields R p gs fs).1,
         (if keySetEq (keysOfF fs) (keysOfF gs) then [] else [keysMsg p fs gs])
           ++ (cmpFields R p gs fs).2)
      | Value.vSeq xs, Value.vSeq ys =>
        if elen xs = elen ys then cmpElems R p 0 ys xs
        else (false, [lenMsg p (elen xs) (elen ys)])
      | va, vb =>
        match toNum va, toNum vb with
        | some x, some y =>
          if numWithin (resolveTol R.abs_tol_fields R.abs_tol p)
              (resolveTol R.rel_tol_fields R.rel_tol p) x y then (true, [])
          else (false, [numMsg p x y (resolveTol R.abs_tol_fields R.abs_tol p)
            (resolveTol R.rel_tol_fields R.rel_tol p)])
        | _, _ =>
          if scalarEq va vb then (true, []) else (false, [valMsg p va vb])
    else (false, [typeMsg p va vb])

/-- Modelled from the spec: mapping comparison (spec section 4.2 step 3):
recurse into every key of the intersection, in the left mapping's order,
conjoining verdicts and concatenating traces; keys missing on the right are
skipped here and already accounted for by the key-set check. -/
def cmpFields (R : Rules) (p : List Seg) (gs : Fields) : Fields → Bool × List String
  | Fields.fnil => (true, [])
  | Fields.fcons k v rest =>
    if containsKeyF gs k then
      ((cmpNode R (p ++ [Seg.field k]) v (lookupDF gs k)).1 && (cmpFields R p gs rest).1,
       (cmpNode R (p ++ [Seg.field k]) v (lookupDF gs k)).2 ++ (cmpFields R p gs rest).2)
    else cmpFields R p gs rest

/-- Modelled from the spec: sequence comparison under equal lengths (spec
section 4.2 step 4): recurse pairwise by index, conjoining verdicts and
concatenating traces through all indices. -/
def cmpElems (R : Rules) (p : List Seg) (i : Nat) (ys : Elems) : Elems → Bool × List String
  | Elems.enil => (true, [])
  | Elems.econs x xs =>
    match ys with
    | Elems.enil => (true, [])
    | Elems.econs y ytail =>
      ((cmpNode R (p ++ [Seg.index i]) x y).1 && (cmpElems R p (i + 1) ytail xs).1,
       (cmpNode R (p ++ [Seg.index i]) x y).2 ++ (cmpElems R p (i + 1) ytail xs).2)

end

/-- Modelled from the spec: the public entry point `compare_dicts` (spec
sections 4.2 and 6).  Every pattern of the rule set is validated eagerly; the
first invalid one aborts the call with the `InvalidPatternError` message
before any comparison, otherwise the boolean verdict of the recursive
comparison from the root path is returned. -/
def compare_dicts (a b : Value) (R : Rules) : Except String Bool :=
  match (allPatterns R).find? (fun s => !validPattern s) with
  | some s => Except.error (invalidMsg s)
  | none => Except.ok (cmpNode R [] a b).1

/-- Decimal digit character of a value below ten. -/
def dChar : Nat → Char
  | 0 => '0'
  | 1 => '1'
  | 2 => '2'
  | 3 => '3'
  | 4 => '4'
  | 5 => '5'
  | 6 => '6'
  | 7 => '7'
  | 8 => '8'
  | _ => '9'

/-- Decimal digits of a natural number, most significant first. -/
def natToDigits (n : Nat) : List Char :=
  if _h : n < 10 then [dChar n]
  else natToDigits (n / 10) ++ [dChar (n % 10)]
decreasing_by exact Nat.div_lt_self (by omega) (by omega)

/-- A nonempty identifier made of identifier characters. -/
def identOk (n : String) : Bool := !n.data.isEmpty && n.data.all isIdentChar

/-- Well-formed pattern segment: field and descent names are identifiers. -/
def segOk : Seg → Bool
  | Seg.field n => identOk n
  | Seg.index _ => true
  | Seg.wildcard => true
  | Seg.descent n => identOk n

/-- Canonical rendering of pattern segments back to pattern characters. -/
def renderPatChars : List Seg → List Char
  | [] => []
  | Seg.field n :: rest => '.' :: (n.data ++ renderPatChars rest)
  | Seg.index i :: rest => '[' :: (natToDigits i ++ ']' :: renderPatChars rest)
  | Seg.wildcard :: rest => '[' :: '*' :: ']' :: renderPatChars rest
  | Seg.descent n :: rest => '.' :: '.' :: (n.data ++ renderPatChars rest)

/-- Canonical rendering of pattern segments as a pattern string. -/
def renderPattern (ps : List Seg) : String := String.mk ('$' :: renderPatChars ps)

/-- Characters that can occur after the root marker of a valid pattern. -/
def allowedChar (c : Char) : Bool :=
  c == '.' || c == '[' || c == ']' || c == '*' || isIdentChar c

/-- A concrete traversal path holds only field and index segments. -/
def concretePath (cs : List Seg) : Bool :=
  cs.all (fun sg =>
    match sg with
    | Seg.field _ => true
    | Seg.index _ => true
    | Seg.wildcard => false
    | Seg.descent _ => false)

/-- Index-tagged pairing of two lists, mirroring the sequence recursion. -/
def idxPairs : Nat → List Value → List Value → List (Nat × Value × Value)
  | _, [], _ => []
  | _, _ :: _, [] => []
  | i, x :: xs, y :: ys => (i, x, y) :: idxPairs (i + 1) xs ys

mutual

/-- Size of a value, the measure of the comparison recursion. -/
def vsize : Value → Nat
  | Value.vMap fs => fsize fs + 1
  | Value.vSeq xs => esize xs + 1
  | Value.vInt _ => 1
  | Value.vFloat _ => 1
  | Value.vBool _ => 1
  | Value.vStr _ => 1
  | Value.vNull => 1

/-- Size of mapping entries. -/
def fsize : Fields → Nat
  | Fields.fnil => 1
  | Fields.fcons _ v rest => vsize v + fsize rest + 1

/-- Size of sequence elements. -/
def esize : Elems → Nat
  | Elems.enil => 1
  | Elems.econs v rest => vsize v + esize rest + 1

end

/-! Basic lemmas about keys, membership and lookup. -/

theorem containsStr_iff (k : String) (l : List String) : containsStr k l = true ↔ k ∈ l := by
  induction l with
  | nil => simp [containsStr]
  | cons x xs ih => simp [containsStr, ih]

theorem keysOfF_eq : (fs : Fields) → keysOfF fs = (toListF fs).map (fun kv => kv.1)
  | Fields.fnil => rfl
  | Fields.fcons k v rest => by simp [keysOfF, toListF, keysOfF_eq rest]

theorem containsKeyF_iff : (gs : Fields) → ∀ k, containsKeyF gs k = true ↔ ∃ v, (k, v) ∈ toListF gs
  | Fields.fnil => by simp [containsKeyF, toListF]
  | Fields.fcons k0 v0 rest => by
    intro k
    simp only [containsKeyF, toListF, List.mem_cons, Bool.or_eq_true, beq_iff_eq,
      containsKeyF_iff rest k]
    constructor
    · rintro (h | ⟨v, hv⟩)
      · exact ⟨v0, Or.inl (by simp [h])⟩
      · exact ⟨v, Or.inr hv⟩
    · rintro ⟨v, h | hv⟩
      · exact Or.inl (congrArg Prod.fst h).symm
      · exact Or.inr ⟨v, hv⟩

theorem mem_containsKeyF {k : String} {v : Value} : {gs : Fields} → (k, v) ∈ toListF gs →
    containsKeyF gs k = true := by
  intro gs h
  exact (containsKeyF_iff gs k).mpr ⟨v, h⟩

theorem containsKeyF_keys (gs : Fields) (k : String) :
    containsKeyF gs k = containsStr k (keysOfF gs) := by
  by_cases h : containsKeyF gs k = true
  · rw [h]
    obtain ⟨v, hv⟩ := (containsKeyF_iff gs k).mp h
    have : k ∈ keysOfF gs := by
      rw [keysOfF_eq]
      exact List.mem_map_of_mem (fun kv => kv.1) hv
    exact ((containsStr_iff k (keysOfF gs)).mpr this).symm
  · rw [Bool.not_eq_true] at h
    rw [h]
    by_contra hc
    have hk : k ∈ keysOfF gs := (containsStr_iff k (keysOfF gs)).mp (by
      cases hcs : containsStr k (keysOfF gs)
      · exact absurd hcs.symm hc
      · rfl)
    rw [keysOfF_eq] at hk
    obtain ⟨kv, hkv, hfst⟩ := List.mem_map.mp hk
    have : containsKeyF gs k = true := by
      refine (containsKeyF_iff gs k).mpr ⟨kv.2, ?_⟩
      have : kv = (k, kv.2) := by
        cases kv
        simpa using hfst
      rw [← this]
      exact hkv
    rw [this] at h
    exact Bool.true_eq_false.mp h

theorem lookupDF_mem : (gs : Fields) → ∀ k, containsKeyF gs k = true →
    (k, lookupDF gs k) ∈ toListF gs
  | Fields.fnil => by simp [containsKeyF]
  | Fields.fcons k0 v0 rest => by
    intro k h
    simp only [lookupDF, toListF, List.mem_cons]
    by_cases hk : k0 == k
    · left
      have : k0 = k := beq_iff_eq.mp hk
      simp [hk, this]
    · right
      rw [if_neg hk]
      refine lookupDF_mem rest k ?_
      simp only [containsKeyF, Bool.or_eq_true] at h
      rcases h with h | h
      · exact absurd h hk
      · exact h

theorem lookupDF_eq {k : String} {v : Value} : (gs : Fields) →
    nodupKeys (keysOfF gs) = true → (k, v) ∈ toListF gs → lookupDF gs k = v
  | Fields.fnil => by simp [toListF]
  | Fields.fcons k0 v0 rest => by
    intro hnd hmem
    simp only [toListF, List.mem_cons] at hmem
    simp only [keysOfF, nodupKeys, Bool.and_eq_true, Bool.not_eq_true] at hnd
    rcases hmem with h | h
    · have h1 : k0 = k := (congrArg Prod.fst h).symm
      have h2 : v0 = v := (congrArg Prod.snd h).symm
      simp [lookupDF, h1, h2]
    · have hne : ¬ (k0 == k) = true := by
        intro hk
        have : k0 = k := beq_iff_eq.mp hk
        subst this
        have : k0 ∈ keysOfF rest := by
          rw [keysOfF_eq]
          exact List.mem_map_of_mem (fun kv => kv.1) h
        have := (containsStr_iff k0 (keysOfF rest)).mpr this
        rw [this] at hnd
        exact absurd hnd.1 (by simp)
      simp only [lookupDF, if_neg hne]
      exact lookupDF_eq rest hnd.2 h

theorem elen_eq : (xs : Elems) → elen xs = (toListE xs).length
  | Elems.enil => rfl
  | Elems.econs v rest => by simp [elen, toListE, elen_eq rest]

/-! Well-formedness and size lemmas. -/

theorem wf_vMap {fs : Fields} (h : wf (Value.vMap fs) = true) :
    nodupKeys (keysOfF fs) = true ∧ wfFields fs = true := by
  rw [wf, Bool.and_eq_true] at h
  exact h

theorem wfFields_mem {k : String} {v : Value} : (fs : Fields) → wfFields fs = true →
    (k, v) ∈ toListF fs → wf v = true
  | Fields.fnil => by simp [toListF]
  | Fields.fcons k0 v0 rest => by
    intro h hmem
    rw [wfFields, Bool.and_eq_true] at h
    simp only [toListF, List.mem_cons] at hmem
    rcases hmem with heq | hmem
    · have : v0 = v := (congrArg Prod.snd heq).symm
      rw [← this]
      exact h.1
    · exact wfFields_mem rest h.2 hmem

theorem wfElems_mem {v : Value} : (xs : Elems) → wfElems xs = true →
    v ∈ toListE xs → wf v = true
  | Elems.enil => by simp [toListE]
  | Elems.econs v0 rest => by
    intro h hmem
    rw [wfElems, Bool.and_eq_true] at h
    simp only [toListE, List.mem_cons] at hmem
    rcases hmem with heq | hmem
    · rw [heq]; exact h.1
    · exact wfElems_mem rest h.2 hmem

theorem vsize_pos : (v : Value) → 0 < vsize v
  | Value.vMap _ => by simp [vsize]
  | Value.vSeq _ => by simp [vsize]
  | Value.vInt _ => by simp [vsize]
  | Value.vFloat _ => by simp [vsize]
  | Value.vBool _ => by simp [vsize]
  | Value.vStr _ => by simp [vsize]
  | Value.vNull => by simp [vsize]

theorem mem_fsize {k : String} {v : Value} : (fs : Fields) → (k, v) ∈ toListF fs →
    vsize v < fsize fs
  | Fields.fnil => by simp [toListF]
  | Fields.fcons k0 v0 rest => by
    intro hmem
    simp only [toListF, List.mem_cons] at hmem
    rw [fsize]
    rcases hmem with heq | hmem
    · have h2 : v0 = v := (congrArg Prod.snd heq).symm
      rw [h2]
      omega
    · have := mem_fsize rest hmem
      omega

theorem mem_esize {v : Value} : (xs : Elems) → v ∈ toListE xs → vsize v < esize xs
  | Elems.enil => by simp [toListE]
  | Elems.econs v0 rest => by
    intro hmem
    simp only [toListE, List.mem_cons] at hmem
    rw [esize]
    rcases hmem with heq | hmem
    · rw [heq]; omega
    · have := mem_esize rest hmem
      omega

/-! Characterizations of the comparison helpers in terms of plain lists. -/

theorem cmpFields_spec (R : Rules) (p : List Seg) (gs : Fields) : (fs : Fields) →
    cmpFields R p gs fs =
      (((toListF fs).filter (fun kv => containsKeyF gs kv.1)).all
         (fun kv => (cmpNode R (p ++ [Seg.field kv.1]) kv.2 (lookupDF gs kv.1)).1),
       (((toListF fs).filter (fun kv => containsKeyF gs kv.1)).map
         (fun kv => (cmpNode R (p ++ [Seg.field kv.1]) kv.2 (lookupDF gs kv.1)).2)).flatten)
  | Fields.fnil => by simp [cmpFields, toListF]
  | Fields.fcons k v rest => by
    rw [cmpFields]
    by_cases h : containsKeyF gs k = true
    · simp [toListF, List.filter, h, cmpFields_spec R p gs rest]
    · rw [Bool.not_eq_true] at h
      simp [toListF, List.filter, h, cmpFields_spec R p gs rest]

theorem cmpElems_spec (R : Rules) (p : List Seg) : (xs : Elems) → (ys : Elems) → (i : Nat) →
    cmpElems R p i ys xs =
      ((idxPairs i (toListE xs) (toListE ys)).all
         (fun t => (cmpNode R (p ++ [Seg.index t.1]) t.2.1 t.2.2).1),
       ((idxPairs i (toListE xs) (toListE ys)).map
         (fun t => (cmpNode R (p ++ [Seg.index t.1]) t.2.1 t.2.2).2)).flatten)
  | Elems.enil, ys, i => by cases ys <;> simp [cmpElems, toListE, idxPairs]
  | Elems.econs x xs, Elems.enil, i => by simp [cmpElems, toListE, idxPairs]
  | Elems.econs x xs, Elems.econs y ys, i => by
    simp [cmpElems, toListE, idxPairs, cmpElems_spec R p xs ys (i + 1)]

theorem idxPairs_mem {t : Nat × Value × Value} : (xs ys : List Value) → (i : Nat) →
    t ∈ idxPairs i xs ys → t.2.1 ∈ xs ∧ t.2.2 ∈ ys := by
  intro xs
  induction xs with
  | nil => intro ys i h; simp [idxPairs] at h
  | cons x xtl ih =>
    intro ys i h
    cases ys with
    | nil => simp [idxPairs] at h
    | cons y ytl =>
      simp only [idxPairs, List.mem_cons] at h
      rcases h with h | h
      · rw [h]; simp
      · have := ih ytl (i + 1) h
        exact ⟨List.mem_cons_of_mem x this.1, List.mem_cons_of_mem y this.2⟩

theorem idxPairs_self {t : Nat × Value × Value} : (xs : List Value) → (i : Nat) →
    t ∈ idxPairs i xs xs → t.2.1 = t.2.2 := by
  intro xs
  induction xs with
  | nil => intro i h; simp [idxPairs] at h
  | cons x xtl ih =>
    intro i h
    simp only [idxPairs, List.mem_cons] at h
    rcases h with h | h
    · rw [h]
    · exact ih (i + 1) h

/-! Small helpers for the main theorems. -/

theorem beqSymm {α : Type} [BEq α] [LawfulBEq α] (a b : α) : (a == b) = (b == a) := by
  by_cases h : a = b
  · rw [h]
  · have h1 : (a == b) = false := beq_eq_false_iff_ne.mpr h
    have h2 : (b == a) = false := beq_eq_false_iff_ne.mpr (Ne.symm h)
    rw [h1, h2]

theorem keySetEq_symm (ka kb : List String) : keySetEq ka kb = keySetEq kb ka := by
  rw [keySetEq, keySetEq, Bool.and_comm]

theorem keySetEq_refl (ka : List String) : keySetEq ka ka = true := by
  rw [keySetEq]
  have : ka.all (fun k => containsStr k ka) = true := by
    rw [List.all_eq_true]
    intro k hk
    exact (containsStr_iff k ka).mpr hk
  rw [this]
  rfl

theorem numWithin_symm (aT rT x y : Rat) : numWithin aT rT x y ↔ numWithin aT rT y x := by
  rw [numWithin, numWithin, abs_sub_comm, max_comm |x| |y|]

theorem numWithin_refl (aT rT x : Rat) (ha : 0 ≤ aT) : numWithin aT rT x x := by
  rw [numWithin, sub_self, abs_zero]
  exact le_max_of_le_left ha

theorem ignoredAt_default (p : List Seg) : ignoredAt defaultRules p = false := by
  rw [ignoredAt]
  cases h : lastFieldName p <;> simp [defaultRules, containsStr]

theorem renderSegsStr_append (p : List Seg) (x : Seg) :
    renderSegsStr (p ++ [x]) = renderSegsStr p ++ renderSeg x := by
  induction p with
  | nil => simp [renderSegsStr]
  | cons s rest ih => simp [renderSegsStr, ih, String.append_assoc]

theorem renderPath_field (p : List Seg) (k : String) :
    renderPath (p ++ [Seg.field k]) = renderPath p ++ ("." ++ k) := by
  rw [renderPath, renderPath, renderSegsStr_append, renderSeg, String.append_assoc]

/-! Span lemmas. -/

theorem spanChars_append (q : Char → Bool) : (cs : List Char) →
    (spanChars q cs).1 ++ (spanChars q cs).2 = cs := by
  intro cs
  induction cs with
  | nil => rfl
  | cons c rest ih =>
    rw [spanChars]
    by_cases h : q c = true
    · simp only [if_pos h]
      simpa using ih
    · rw [Bool.not_eq_true] at h
      simp [h]

theorem spanChars_sat (q : Char → Bool) : (cs : List Char) →
    ∀ c ∈ (spanChars q cs).1, q c = true := by
  intro cs
  induction cs with
  | nil => simp [spanChars]
  | cons c0 rest ih =>
    rw [spanChars]
    by_cases h : q c0 = true
    · simp only [if_pos h]
      intro c hc
      simp only [List.mem_cons] at hc
      rcases hc with hc | hc
      · rw [hc]; exact h
      · exact ih c hc
    · rw [Bool.not_eq_true] at h
      simp [h]

theorem spanChars_of (q : Char → Bool) (l r : List Char) (hl : ∀ c ∈ l, q c = true)
    (hr : ∀ c, r.head? = some c → q c = false) : spanChars q (l ++ r) = (l, r) := by
  induction l with
  | nil =>
    cases r with
    | nil => rfl
    | cons c rest =>
      have := hr c rfl
      simp [spanChars, this]
  | cons c0 l0 ih =>
    have hq : q c0 = true := hl c0 (by simp)
    rw [List.cons_append, spanChars, if_pos hq, ih (fun c hc => hl c (by simp [hc]))]

/-! Digit rendering lemmas. -/

theorem dChar_isDigit (d : Nat) (h : d < 10) : (dChar d).isDigit = true := by
  interval_cases d <;> rfl

theorem dChar_toNat (d : Nat) (h : d < 10) : (dChar d).toNat - 48 = d := by
  interval_cases d <;> rfl

theorem digitsToNat_append (l : List Char) (c : Char) :
    digitsToNat (l ++ [c]) = digitsToNat l * 10 + (c.toNat - 48) := by
  simp [digitsToNat, List.foldl_append]

theorem natToDigits_spec (n : Nat) : natToDigits n ≠ [] ∧
    (∀ c ∈ natToDigits n, c.isDigit = true) ∧ digitsToNat (natToDigits n) = n := by
  induction n using Nat.strong_induction_on with
  | _ n ih =>
    rw [natToDigits]
    by_cases h : n < 10
    · simp only [dif_pos h]
      refine ⟨by simp, ?_, ?_⟩
      · intro c hc
        simp only [List.mem_singleton] at hc
        rw [hc]
        exact dChar_isDigit n h
      · simp [digitsToNat, dChar_toNat n h]
    · simp only [dif_neg h]
      have hdiv : n / 10 < n := Nat.div_lt_self (by omega) (by omega)
      obtain ⟨-, hdig, hval⟩ := ih (n / 10) hdiv
      refine ⟨by simp, ?_, ?_⟩
      · intro c hc
        simp only [List.mem_append, List.mem_singleton] at hc
        rcases hc with hc | hc
        · exact hdig c hc
        · rw [hc]
          exact dChar_isDigit (n % 10) (Nat.mod_lt n (by omega))
      · rw [digitsToNat_append, hval, dChar_toNat (n % 10) (Nat.mod_lt n (by omega))]
        omega

/-! Parser soundness: a pattern that validates holds only grammar characters
after the leading root marker. -/

theorem stringMkData (s : String) : String.mk s.data = s := by
  cases s
  rfl

theorem ident_allowed {c : Char} (h : isIdentChar c = true) : allowedChar c = true := by
  simp [allowedChar, h]

theorem digit_allowed {c : Char} (h : c.isDigit = true) : allowedChar c = true := by
  refine ident_allowed ?_
  simp [isIdentChar, Char.isAlphanum, h]

theorem parseSegsF_chars : (f : Nat) → ∀ cs segs, parseSegsF f cs = some segs →
    ∀ c ∈ cs, allowedChar c = true := by
  intro f
  induction f with
  | zero =>
    intro cs segs h c hc
    cases cs with
    | nil => simp at hc
    | cons c0 cs0 => simp [parseSegsF] at h
  | succ f ih =>
    intro cs segs h c hc
    cases cs with
    | nil => simp at hc
    | cons c0 cs0 =>
      rw [parseSegsF] at h
      by_cases h0 : (c0 == '.') = true
      · rw [if_pos h0] at h
        have hc0 : allowedChar c0 = true := by rw [beq_iff_eq.mp h0]; decide
        by_cases hh : (cs0.head? == some '.') = true
        · rw [if_pos hh] at h
          obtain ⟨ct, hct⟩ : ∃ ct, cs0 = '.' :: ct := by
            cases hcs0 : cs0 with
            | nil => rw [hcs0] at hh; simp at hh
            | cons c1 ct =>
              rw [hcs0, List.head?_cons] at hh
              have h2 : c1 = '.' := Option.some_inj.mp (beq_iff_eq.mp hh)
              exact ⟨ct, by rw [h2]⟩
          subst hct
          rw [List.tail_cons] at h
          by_cases he : (spanChars isIdentChar ct).1.isEmpty = true
          · rw [if_pos he] at h; exact absurd h (by simp)
          · rw [if_neg he] at h
            obtain ⟨segs0, hp, -⟩ := Option.map_eq_some'.mp h
            rcases List.mem_cons.mp hc with rfl | hcs
            · exact hc0
            rcases List.mem_cons.mp hcs with rfl | hcs2
            · decide
            have hsplit := spanChars_append isIdentChar ct
            rw [← hsplit] at hcs2
            rcases List.mem_append.mp hcs2 with hm | hm
            · exact ident_allowed (spanChars_sat isIdentChar ct c hm)
            · exact ih _ _ hp c hm
        · rw [if_neg hh] at h
          by_cases he : (spanChars isIdentChar cs0).1.isEmpty = true
          · rw [if_pos he] at h; exact absurd h (by simp)
          · rw [if_neg he] at h
            obtain ⟨segs0, hp, -⟩ := Option.map_eq_some'.mp h
            rcases List.mem_cons.mp hc with rfl | hcs
            · exact hc0
            have hsplit := spanChars_append isIdentChar cs0
            rw [← hsplit] at hcs
            rcases List.mem_append.mp hcs with hm | hm
            · exact ident_allowed (spanChars_sat isIdentChar cs0 c hm)
            · exact ih _ _ hp c hm
      · rw [if_neg h0] at h
        by_cases hb : (c0 == '[') = true
        · rw [if_pos hb] at h
          have hc0 : allowedChar c0 = true := by rw [beq_iff_eq.mp hb]; decide
          by_cases hh : (cs0.head? == some '*') = true
          · rw [if_pos hh] at h
            obtain ⟨ct, hct⟩ : ∃ ct, cs0 = '*' :: ct := by
              cases hcs0 : cs0 with
              | nil => rw [hcs0] at hh; simp at hh
              | cons c1 ct =>
                rw [hcs0, List.head?_cons] at hh
                have h2 : c1 = '*' := Option.some_inj.mp (beq_iff_eq.mp hh)
                exact ⟨ct, by rw [h2]⟩
            subst hct
            rw [List.tail_cons] at h
            by_cases hh2 : (ct.head? == some ']') = true
            · rw [if_pos hh2] at h
              obtain ⟨ct2, hct2⟩ : ∃ ct2, ct = ']' :: ct2 := by
                cases hct0 : ct with
                | nil => rw [hct0] at hh2; simp at hh2
                | cons c1 ct2 =>
                  rw [hct0, List.head?_cons] at hh2
                  have h2 : c1 = ']' := Option.some_inj.mp (beq_iff_eq.mp hh2)
                  exact ⟨ct2, by rw [h2]⟩
              subst hct2
              rw [List.tail_cons] at h
              obtain ⟨segs0, hp, -⟩ := Option.map_eq_some'.mp h
              rcases List.mem_cons.mp hc with rfl | hcs
              · exact hc0
              rcases List.mem_cons.mp hcs with rfl | hcs2
              · decide
              rcases List.mem_cons.mp hcs2 with rfl | hcs3
              · decide
              · exact ih _ _ hp c hcs3
            · rw [if_neg hh2] at h; exact absurd h (by simp)
          · rw [if_neg hh] at h
            by_cases he : (spanChars (fun d => d.isDigit) cs0).1.isEmpty = true
            · rw [if_pos he] at h; exact absurd h (by simp)
            · rw [if_neg he] at h
              by_cases hh2 : ((spanChars (fun d => d.isDigit) cs0).2.head? == some ']') = true
              · rw [if_pos hh2] at h
                obtain ⟨segs0, hp, -⟩ := Option.map_eq_some'.mp h
                rcases List.mem_cons.mp hc with rfl | hcs
                · exact hc0
                have hsplit := spanChars_append (fun d => d.isDigit) cs0
                rw [← hsplit] at hcs
                rcases List.mem_append.mp hcs with hm | hm
                · exact digit_allowed (spanChars_sat (fun d => d.isDigit) cs0 c hm)
                · obtain ⟨t2, ht2⟩ : ∃ t2, (spanChars (fun d => d.isDigit) cs0).2 = ']' :: t2 := by
                    cases hsp : (spanChars (fun d => d.isDigit) cs0).2 with
                    | nil => rw [hsp] at hh2; simp at hh2
                    | cons c1 t2 =>
                      rw [hsp, List.head?_cons] at hh2
                      have h2 : c1 = ']' := Option.some_inj.mp (beq_iff_eq.mp hh2)
                      exact ⟨t2, by rw [h2]⟩
                  rw [ht2] at hm
                  rw [ht2, List.tail_cons] at hp
                  rcases List.mem_cons.mp hm with rfl | hm2
                  · decide
                  · exact ih _ _ hp c hm2
              · rw [if_neg hh2] at h; exact absurd h (by simp)
        · rw [if_neg hb] at h
          exact absurd h (by simp)

theorem validPattern_chars {s : String} (h : validPattern s = true) :
    ∃ rest, s.data = '$' :: rest ∧ ∀ c ∈ rest, allowedChar c = true := by
  rw [validPattern] at h
  simp only [parsePattern] at h
  by_cases hh : (s.data.head? == some '$') = true
  · obtain ⟨rest, hrest⟩ : ∃ rest, s.data = '$' :: rest := by
      cases hd : s.data with
      | nil => rw [hd] at hh; simp at hh
      | cons c0 r =>
        rw [hd, List.head?_cons] at hh
        have h2 : c0 = '$' := Option.some_inj.mp (beq_iff_eq.mp hh)
        exact ⟨r, by rw [h2]⟩
    refine ⟨rest, hrest, ?_⟩
    rw [if_pos hh, hrest, List.tail_cons] at h
    cases hp : parseSegsF rest.length rest with
    | none => rw [hp] at h; simp at h
    | some segs => exact parseSegsF_chars _ _ _ hp
  · rw [if_neg hh] at h
    simp at h

theorem validPattern_false {s : String} {c : Char} (hc : c ∈ s.data)
    (hbad : allowedChar c = false) (hdollar : c ≠ '$') : validPattern s = false := by
  cases hv : validPattern s with
  | false => rfl
  | true =>
    obtain ⟨rest, hdata, hall⟩ := validPattern_chars hv
    rw [hdata] at hc
    rcases List.mem_cons.mp hc with rfl | hcr
    · exact absurd rfl hdollar
    · rw [hall c hcr] at hbad
      exact absurd hbad (by simp)

/-! Parser completeness: every well-formed rendered pattern validates, and
parses back to the segments it renders. -/

theorem renderPat_head : (ps : List Seg) → ∀ c, (renderPatChars ps).head? = some c →
    isIdentChar c = false := by
  intro ps c h
  cases ps with
  | nil => simp [renderPatChars] at h
  | cons sg rest =>
    cases sg with
    | field n =>
      rw [renderPatChars, List.head?_cons, Option.some_inj] at h
      rw [← h]
      decide
    | index i =>
      rw [renderPatChars, List.head?_cons, Option.some_inj] at h
      rw [← h]
      decide
    | wildcard =>
      rw [renderPatChars, List.head?_cons, Option.some_inj] at h
      rw [← h]
      decide
    | descent n =>
      rw [renderPatChars, List.head?_cons, Option.some_inj] at h
      rw [← h]
      decide

theorem parse_render : (ps : List Seg) → (∀ sg ∈ ps, segOk sg = true) →
    ∀ f, (renderPatChars ps).length ≤ f → parseSegsF f (renderPatChars ps) = some ps := by
  intro ps
  induction ps with
  | nil =>
    intro hok f hf
    cases f <;> rfl
  | cons sg rest ih =>
    intro hok f hf
    have hrest : ∀ sg2 ∈ rest, segOk sg2 = true := fun sg2 h2 => hok sg2 (by simp [h2])
    have ihr := ih hrest
    cases sg with
    | field n =>
      have hn : identOk n = true := hok (Seg.field n) (by simp)
      rw [identOk, Bool.and_eq_true, Bool.not_eq_true', List.all_eq_true] at hn
      have hne : n.data ≠ [] := by
        intro hx
        rw [hx] at hn
        exact absurd hn.1 (by simp)
      obtain ⟨d, ds, hd⟩ := List.exists_cons_of_ne_nil hne
      rw [renderPatChars] at hf ⊢
      obtain ⟨f2, rfl⟩ : ∃ f2, f = f2 + 1 := by
        cases f with
        | zero => simp at hf
        | succ f2 => exact ⟨f2, rfl⟩
      rw [parseSegsF, if_pos (by decide : (('.' : Char) == '.') = true)]
      have hdid : isIdentChar d = true := hn.2 d (by rw [hd]; simp)
      have hno : ¬ (((n.data ++ renderPatChars rest).head? == some '.') = true) := by
        rw [hd, List.cons_append, List.head?_cons]
        intro hx
        have h2 : d = '.' := Option.some_inj.mp (beq_iff_eq.mp hx)
        rw [h2] at hdid
        exact absurd hdid (by decide)
      rw [if_neg hno]
      have hspan : spanChars isIdentChar (n.data ++ renderPatChars rest) =
          (n.data, renderPatChars rest) :=
        spanChars_of isIdentChar n.data (renderPatChars rest) hn.2 (renderPat_head rest)
      rw [hspan]
      have hemp : ¬ (n.data.isEmpty = true) := by
        rw [hd]
        simp
      rw [if_neg hemp]
      have hlen : (renderPatChars rest).length ≤ f2 := by
        simp only [List.length_cons, List.length_append] at hf
        have h1 : 1 ≤ n.data.length := by rw [hd]; simp
        omega
      rw [ihr f2 hlen, stringMkData]
      rfl
    | descent n =>
      have hn : identOk n = true := hok (Seg.descent n) (by simp)
      rw [identOk, Bool.and_eq_true, Bool.not_eq_true', List.all_eq_true] at hn
      have hne : n.data ≠ [] := by
        intro hx
        rw [hx] at hn
        exact absurd hn.1 (by simp)
      rw [renderPatChars] at hf ⊢
      obtain ⟨f2, rfl⟩ : ∃ f2, f = f2 + 1 := by
        cases f with
        | zero => simp at hf
        | succ f2 => exact ⟨f2, rfl⟩
      rw [parseSegsF, if_pos (by decide : (('.' : Char) == '.') = true),
        if_pos (by rw [List.head?_cons]; decide), List.tail_cons]
      have hspan : spanChars isIdentChar (n.data ++ renderPatChars rest) =
          (n.data, renderPatChars rest) :=
        spanChars_of isIdentChar n.data (renderPatChars rest) hn.2 (renderPat_head rest)
      rw [hspan]
      have hemp : ¬ (n.data.isEmpty = true) := by
        intro hx
        exact hne (List.isEmpty_iff.mp hx)
      rw [if_neg hemp]
      have hlen : (renderPatChars rest).length ≤ f2 := by
        simp only [List.length_cons, List.length_append] at hf
        have h1 : 1 ≤ n.data.length := by
          cases hx : n.data with
          | nil => exact absurd hx hne
          | cons a b => simp
        omega
      rw [ihr f2 hlen, stringMkData]
      rfl
    | wildcard =>
      rw [renderPatChars] at hf ⊢
      obtain ⟨f2, rfl⟩ : ∃ f2, f = f2 + 1 := by
        cases f with
        | zero => simp at hf
        | succ f2 => exact ⟨f2, rfl⟩
      rw [parseSegsF,
        if_neg (by decide : ¬ ((('[' : Char) == '.') = true)),
        if_pos (by decide : (('[' : Char) == '[') = true),
        if_pos (by rw [List.head?_cons]; decide),
        List.tail_cons,
        if_pos (by rw [List.head?_cons]; decide),
        List.tail_cons]
      have hlen : (renderPatChars rest).length ≤ f2 := by
        simp only [List.length_cons] at hf
        omega
      rw [ihr f2 hlen]
      rfl
    | index i =>
      rw [renderPatChars] at hf ⊢
      obtain ⟨f2, rfl⟩ : ∃ f2, f = f2 + 1 := by
        cases f with
        | zero => simp at hf
        | succ f2 => exact ⟨f2, rfl⟩
      obtain ⟨hne, hdig, hval⟩ := natToDigits_spec i
      obtain ⟨d, ds, hd⟩ := List.exists_cons_of_ne_nil hne
      have hddig : d.isDigit = true := hdig d (by rw [hd]; simp)
      rw [parseSegsF, if_neg (by decide : ¬ ((('[' : Char) == '.') = true)),
        if_pos (by decide : (('[' : Char) == '[') = true)]
      have hnostar : ¬ (((natToDigits i ++ ']' :: renderPatChars rest).head? == some '*') = true) := by
        rw [hd, List.cons_append, List.head?_cons]
        intro hx
        have h2 : d = '*' := Option.some_inj.mp (beq_iff_eq.mp hx)
        rw [h2] at hddig
        exact absurd hddig (by decide)
      rw [if_neg hnostar]
      have hspan : spanChars (fun c => c.isDigit) (natToDigits i ++ ']' :: renderPatChars rest) =
          (natToDigits i, ']' :: renderPatChars rest) := by
        refine spanChars_of _ _ _ hdig ?_
        intro c hcl
        rw [List.head?_cons, Option.some_inj] at hcl
        rw [← hcl]
        decide
      rw [hspan]
      have hemp : ¬ ((natToDigits i).isEmpty = true) := by
        intro hx
        exact hne (List.isEmpty_iff.mp hx)
      rw [if_neg hemp,
        if_pos (by rw [List.head?_cons]; decide),
        List.tail_cons]
      have hlen : (renderPatChars rest).length ≤ f2 := by
        simp only [List.length_cons, List.length_append] at hf
        have h1 : 1 ≤ (natToDigits i).length := by rw [hd]; simp
        omega
      rw [ihr f2 hlen, hval]
      rfl

theorem validPattern_render (ps : List Seg) (hok : ∀ sg ∈ ps, segOk sg = true) :
    parsePattern (renderPattern ps) = some ps := by
  have hdata : (renderPattern ps).data = '$' :: renderPatChars ps := rfl
  simp only [parsePattern, hdata, List.head?_cons, List.tail_cons]
  rw [if_pos (by decide : ((some ('$' : Char) == some '$')) = true)]
  exact parse_render ps hok (renderPatChars ps).length (le_refl _)

/-! Shape lemmas for one step of the node comparison. -/

theorem cmpNode_ignored (R : Rules) (p : List Seg) (va vb : Value)
    (hig : ignoredAt R p = true) : cmpNode R p va vb = (true, [ignoredMsg p]) := by
  rw [cmpNode.eq_def, if_pos hig]

theorem cmpNode_type (R : Rules) (p : List Seg) (va vb : Value)
    (hig : ignoredAt R p = false) (hk : kindOf va ≠ kindOf vb) :
    cmpNode R p va vb = (false, [typeMsg p va vb]) := by
  rw [cmpNode.eq_def, if_neg (by simp [hig]), if_neg hk]

theorem cmpNode_map (R : Rules) (p : List Seg) (fs gs : Fields)
    (hig : ignoredAt R p = false) :
    cmpNode R p (Value.vMap fs) (Value.vMap gs) =
      (keySetEq (keysOfF fs) (keysOfF gs) && (cmpFields R p gs fs).1,
       (if keySetEq (keysOfF fs) (keysOfF gs) then [] else [keysMsg p fs gs])
         ++ (cmpFields R p gs fs).2) := by
  rw [cmpNode.eq_def, if_neg (by simp [hig]),
    if_pos (show kindOf (Value.vMap fs) = kindOf (Value.vMap gs) from rfl)]

theorem cmpNode_seq (R : Rules) (p : List Seg) (xs ys : Elems)
    (hig : ignoredAt R p = false) :
    cmpNode R p (Value.vSeq xs) (Value.vSeq ys) =
      (if elen xs = elen ys then cmpElems R p 0 ys xs
       else (false, [lenMsg p (elen xs) (elen ys)])) := by
  rw [cmpNode.eq_def, if_neg (by simp [hig]),
    if_pos (show kindOf (Value.vSeq xs) = kindOf (Value.vSeq ys) from rfl)]

theorem cmpNode_num (R : Rules) (p : List Seg) (va vb : Value) (x y : Rat)
    (hig : ignoredAt R p = false) (hx : toNum va = some x) (hy : toNum vb = some y) :
    cmpNode R p va vb =
      (if numWithin (resolveTol R.abs_tol_fields R.abs_tol p)
          (resolveTol R.rel_tol_fields R.rel_tol p) x y then (true, [])
       else (false, [numMsg p x y (resolveTol R.abs_tol_fields R.abs_tol p)
         (resolveTol R.rel_tol_fields R.rel_tol p)])) := by
  cases va with
  | vInt n =>
    simp only [toNum, Option.some_inj] at hx
    subst hx
    cases vb with
    | vInt m =>
      simp only [toNum, Option.some_inj] at hy
      subst hy
      rw [cmpNode.eq_def, if_neg (by simp [hig]),
        if_pos (show kindOf (Value.vInt n) = kindOf (Value.vInt m) from rfl)]
      rfl
    | vFloat q =>
      simp only [toNum, Option.some_inj] at hy
      subst hy
      rw [cmpNode.eq_def, if_neg (by simp [hig]),
        if_pos (show kindOf (Value.vInt n) = kindOf (Value.vFloat q) from rfl)]
      rfl
    | vMap gs => simp [toNum] at hy
    | vSeq ys => simp [toNum] at hy
    | vBool b => simp [toNum] at hy
    | vStr t => simp [toNum] at hy
    | vNull => simp [toNum] at hy
  | vFloat q0 =>
    simp only [toNum, Option.some_inj] at hx
    subst hx
    cases vb with
    | vInt m =>
      simp only [toNum, Option.some_inj] at hy
      subst hy
      rw [cmpNode.eq_def, if_neg (by simp [hig]),
        if_pos (show kindOf (Value.vFloat q0) = kindOf (Value.vInt m) from rfl)]
      rfl
    | vFloat q =>
      simp only [toNum, Option.some_inj] at hy
      subst hy
      rw [cmpNode.eq_def, if_neg (by simp [hig]),
        if_pos (show kindOf (Value.vFloat q0) = kindOf (Value.vFloat q) from rfl)]
      rfl
    | vMap gs => simp [toNum] at hy
    | vSeq ys => simp [toNum] at hy
    | vBool b => simp [toNum] at hy
    | vStr t => simp [toNum] at hy
    | vNull => simp [toNum] at hy
  | vMap fs => simp [toNum] at hx
  | vSeq xs => simp [toNum] at hx
  | vBool b => simp [toNum] at hx
  | vStr t => simp [toNum] at hx
  | vNull => simp [toNum] at hx

theorem cmpNode_bool (R : Rules) (p : List Seg) (x y : Bool)
    (hig : ignoredAt R p = false) :
    cmpNode R p (Value.vBool x) (Value.vBool y) =
      (if (x == y) = true then (true, [])
       else (false, [valMsg p (Value.vBool x) (Value.vBool y)])) := by
  rw [cmpNode.eq_def, if_neg (by simp [hig]),
    if_pos (show kindOf (Value.vBool x) = kindOf (Value.vBool y) from rfl)]
  rfl

theorem cmpNode_str (R : Rules) (p : List Seg) (x y : String)
    (hig : ignoredAt R p = false) :
    cmpNode R p (Value.vStr x) (Value.vStr y) =
      (if (x == y) = true then (true, [])
       else (false, [valMsg p (Value.vStr x) (Value.vStr y)])) := by
  rw [cmpNode.eq_def, if_neg (by simp [hig]),
    if_pos (show kindOf (Value.vStr x) = kindOf (Value.vStr y) from rfl)]
  rfl

theorem cmpNode_null (R : Rules) (p : List Seg) (hig : ignoredAt R p = false) :
    cmpNode R p Value.vNull Value.vNull = (true, []) := by
  rw [cmpNode.eq_def, if_neg (by simp [hig]),
    if_pos (show kindOf Value.vNull = kindOf Value.vNull from rfl)]
  rfl

/-! Recursive-descent matching: semantics of a leading descent segment. -/

theorem descTailOk_iff (ps rest : List Seg) :
    descTailOk ps rest = true ↔ (ps = [] ∨ segMatches ps rest = true) := by
  cases ps with
  | nil => simp [descTailOk]
  | cons p0 ps2 =>
    rw [descTailOk]
    constructor
    · intro h
      exact Or.inr h
    · rintro (h | h)
      · exact absurd h (by simp)
      · exact h

theorem segMatches_descent_field_step (n m : String) (ps cs : List Seg) :
    segMatches (Seg.descent n :: ps) (Seg.field m :: cs) =
      ((n == m && descTailOk ps cs) || segMatches (Seg.descent n :: ps) cs) := by
  cases ps with
  | nil => simp [segMatches, descTailOk]
  | cons p0 ps2 => rfl

theorem segMatches_descent_split (n : String) : (cs : List Seg) → ∀ ps,
    concretePath cs = true →
    (segMatches (Seg.descent n :: ps) cs = true ↔
      ∃ pre rest, cs = pre ++ Seg.field n :: rest ∧
        (ps = [] ∨ segMatches ps rest = true)) := by
  intro cs
  induction cs with
  | nil =>
    intro ps hc
    constructor
    · intro h
      refine absurd h ?_
      cases ps <;> simp [segMatches]
    · rintro ⟨pre, rest, hceq, -⟩
      exact absurd hceq (by simp)
  | cons sg cs2 ih =>
    intro ps hc
    rw [concretePath, List.all_cons, Bool.and_eq_true] at hc
    have hc2 : concretePath cs2 = true := hc.2
    cases sg with
    | field m =>
      rw [show (segMatches (Seg.descent n :: ps) (Seg.field m :: cs2) = true) =
          (((n == m && descTailOk ps cs2) || segMatches (Seg.descent n :: ps) cs2) = true) from by
        rw [segMatches_descent_field_step]]
      rw [Bool.or_eq_true]
      constructor
      · intro h
        rcases h with h1 | h2
        · rw [Bool.and_eq_true] at h1
          refine ⟨[], cs2, ?_, ?_⟩
          · rw [beq_iff_eq.mp h1.1]
            simp
          · exact (descTailOk_iff ps cs2).mp h1.2
        · obtain ⟨pre, rest, hceq, hm⟩ := (ih ps hc2).mp h2
          exact ⟨Seg.field m :: pre, rest, by rw [hceq]; simp, hm⟩
      · rintro ⟨pre, rest, hceq, hm⟩
        cases pre with
        | nil =>
          simp only [List.nil_append, List.cons.injEq] at hceq
          have h1 : m = n := Seg.field.inj hceq.1
          refine Or.inl ?_
          rw [Bool.and_eq_true]
          refine ⟨beq_iff_eq.mpr h1.symm, ?_⟩
          rw [hceq.2]
          exact (descTailOk_iff ps rest).mpr hm
        | cons p0 pre2 =>
          simp only [List.cons_append, List.cons.injEq] at hceq
          exact Or.inr ((ih ps hc2).mpr ⟨pre2, rest, hceq.2, hm⟩)
    | index j =>
      have hstep : segMatches (Seg.descent n :: ps) (Seg.index j :: cs2) =
          segMatches (Seg.descent n :: ps) cs2 := by
        cases ps <;> rfl
      rw [hstep]
      constructor
      · intro h
        obtain ⟨pre, rest, hceq, hm⟩ := (ih ps hc2).mp h
        exact ⟨Seg.index j :: pre, rest, by rw [hceq]; simp, hm⟩
      · rintro ⟨pre, rest, hceq, hm⟩
        cases pre with
        | nil =>
          simp only [List.nil_append, List.cons.injEq] at hceq
          exact absurd hceq.1 (by simp)
        | cons p0 pre2 =>
          simp only [List.cons_append, List.cons.injEq] at hceq
          exact (ih ps hc2).mpr ⟨pre2, rest, hceq.2, hm⟩
    | wildcard => exact absurd hc.1 (by simp)
    | descent m => exact absurd hc.1 (by simp)

theorem segMatches_descent_single (n : String) (cs : List Seg)
    (hc : concretePath cs = true) :
    segMatches [Seg.descent n] cs = true ↔
      ∃ pre rest, cs = pre ++ Seg.field n :: rest := by
  rw [segMatches_descent_split n cs [] hc]
  constructor
  · rintro ⟨pre, rest, hceq, -⟩
    exact ⟨pre, rest, hceq⟩
  · rintro ⟨pre, rest, hceq⟩
    exact ⟨pre, rest, hceq, Or.inl rfl⟩

/-! Reflexivity of the comparison under the default rules. -/

theorem boolEqOfIff {a b : Bool} (h : a = true ↔ b = true) : a = b := by
  cases a with
  | true => exact (h.mp rfl).symm
  | false =>
    cases b with
    | true => exact absurd (h.mpr rfl) (by simp)
    | false => rfl

theorem toNum_kind (v : Value) (x : Rat) (h : toNum v = some x) : kindOf v = Kind.kNum := by
  cases v <;> simp [toNum] at h <;> rfl

theorem kind_toNum (v : Value) (h : kindOf v = Kind.kNum) : ∃ x, toNum v = some x := by
  cases v <;> simp [kindOf] at h <;> simp [toNum]

theorem cmpNode_refl_aux : ∀ N : Nat, ∀ v : Value, vsize v ≤ N → wf v = true → ∀ p,
    (cmpNode defaultRules p v v).1 = true := by
  intro N
  induction N with
  | zero =>
    intro v hv
    have := vsize_pos v
    omega
  | succ N ih =>
    intro v hv hwf p
    have hig := ignoredAt_default p
    cases v with
    | vMap fs =>
      have h1 : (cmpNode defaultRules p (Value.vMap fs) (Value.vMap fs)).1 =
          (keySetEq (keysOfF fs) (keysOfF fs) && (cmpFields defaultRules p fs fs).1) := by
        rw [cmpNode_map defaultRules p fs fs hig]
      rw [h1, keySetEq_refl, Bool.true_and]
      have h2 : (cmpFields defaultRules p fs fs).1 =
          ((toListF fs).filter (fun kv => containsKeyF fs kv.1)).all
            (fun kv => (cmpNode defaultRules (p ++ [Seg.field kv.1]) kv.2 (lookupDF fs kv.1)).1) := by
        rw [cmpFields_spec]
      rw [h2, List.all_eq_true]
      intro kv hkv
      obtain ⟨k, v⟩ := kv
      rw [List.mem_filter] at hkv
      obtain ⟨hnd, hwff⟩ := wf_vMap hwf
      have hlook : lookupDF fs k = v := lookupDF_eq fs hnd hkv.1
      show (cmpNode defaultRules (p ++ [Seg.field k]) v (lookupDF fs k)).1 = true
      rw [hlook]
      refine ih v ?_ (wfFields_mem fs hwff hkv.1) (p ++ [Seg.field k])
      have h3 := mem_fsize fs hkv.1
      have h4 : vsize (Value.vMap fs) = fsize fs + 1 := by rw [vsize]
      omega
    | vSeq xs =>
      have h1 : (cmpNode defaultRules p (Value.vSeq xs) (Value.vSeq xs)).1 =
          (cmpElems defaultRules p 0 xs xs).1 := by
        rw [cmpNode_seq defaultRules p xs xs hig, if_pos rfl]
      rw [h1]
      have h2 : (cmpElems defaultRules p 0 xs xs).1 =
          (idxPairs 0 (toListE xs) (toListE xs)).all
            (fun t => (cmpNode defaultRules (p ++ [Seg.index t.1]) t.2.1 t.2.2).1) := by
        rw [cmpElems_spec]
      rw [h2, List.all_eq_true]
      intro t ht
      have heq := idxPairs_self (toListE xs) 0 ht
      have hmem := idxPairs_mem (toListE xs) (toListE xs) 0 ht
      rw [← heq]
      have hwfx : wfElems xs = true := by rw [wf] at hwf; exact hwf
      refine ih t.2.1 ?_ (wfElems_mem xs hwfx hmem.1) (p ++ [Seg.index t.1])
      have h3 := mem_esize xs hmem.1
      have h4 : vsize (Value.vSeq xs) = esize xs + 1 := by rw [vsize]
      omega
    | vInt n =>
      have h1 := cmpNode_num defaultRules p (Value.vInt n) (Value.vInt n) n n hig rfl rfl
      have hw : numWithin (resolveTol defaultRules.abs_tol_fields defaultRules.abs_tol p)
          (resolveTol defaultRules.rel_tol_fields defaultRules.rel_tol p) (n : Rat) (n : Rat) := by
        have e1 : resolveTol defaultRules.abs_tol_fields defaultRules.abs_tol p = 0 := rfl
        have e2 : resolveTol defaultRules.rel_tol_fields defaultRules.rel_tol p = 0 := rfl
        rw [e1, e2]
        exact numWithin_refl 0 0 _ le_rfl
      rw [h1, if_pos hw]
    | vFloat q =>
      have h1 := cmpNode_num defaultRules p (Value.vFloat q) (Value.vFloat q) q q hig rfl rfl
      have hw : numWithin (resolveTol defaultRules.abs_tol_fields defaultRules.abs_tol p)
          (resolveTol defaultRules.rel_tol_fields defaultRules.rel_tol p) q q := by
        have e1 : resolveTol defaultRules.abs_tol_fields defaultRules.abs_tol p = 0 := rfl
        have e2 : resolveTol defaultRules.rel_tol_fields defaultRules.rel_tol p = 0 := rfl
        rw [e1, e2]
        exact numWithin_refl 0 0 _ le_rfl
      rw [h1, if_pos hw]
    | vBool c =>
      rw [cmpNode_bool defaultRules p c c hig, if_pos (beq_self_eq_true c)]
    | vStr t =>
      rw [cmpNode_str defaultRules p t t hig, if_pos (beq_self_eq_true t)]
    | vNull =>
      rw [cmpNode_null defaultRules p hig]

/-! Symmetry of the comparison verdict. -/

theorem cmpElems_symm_of (R : Rules) (p : List Seg) : (xs : Elems) → (ys : Elems) → (i : Nat) →
    (∀ x ∈ toListE xs, ∀ y ∈ toListE ys, ∀ q, (cmpNode R q x y).1 = (cmpNode R q y x).1) →
    (cmpElems R p i ys xs).1 = (cmpElems R p i xs ys).1
  | Elems.enil, ys, i => by
    intro hp
    cases ys <;> rfl
  | Elems.econs x xs, Elems.enil, i => by
    intro hp
    rfl
  | Elems.econs x xs, Elems.econs y ys, i => by
    intro hp
    show ((cmpNode R (p ++ [Seg.index i]) x y).1 && (cmpElems R p (i + 1) ys xs).1) =
        ((cmpNode R (p ++ [Seg.index i]) y x).1 && (cmpElems R p (i + 1) xs ys).1)
    rw [hp x (by simp [toListE]) y (by simp [toListE]) (p ++ [Seg.index i])]
    rw [cmpElems_symm_of R p xs ys (i + 1)
      (fun x2 hx2 y2 hy2 q => hp x2 (by simp [toListE, hx2]) y2 (by simp [toListE, hy2]) q)]

theorem cmpNode_symm_aux : ∀ N : Nat, ∀ a b : Value, vsize a + vsize b ≤ N →
    wf a = true → wf b = true → ∀ R p, (cmpNode R p a b).1 = (cmpNode R p b a).1 := by
  intro N
  induction N with
  | zero =>
    intro a b h
    have := vsize_pos a
    have := vsize_pos b
    omega
  | succ N ih =>
    intro a b hsz hwa hwb R p
    by_cases hig : ignoredAt R p = true
    · rw [cmpNode_ignored R p a b hig, cmpNode_ignored R p b a hig]
    · rw [Bool.not_eq_true] at hig
      by_cases hk : kindOf a = kindOf b
      case neg =>
        rw [cmpNode_type R p a b hig hk, cmpNode_type R p b a hig (fun h2 => hk h2.symm)]
      case pos =>
        cases hA : toNum a with
        | some x =>
          obtain ⟨y, hB⟩ : ∃ y, toNum b = some y := by
            refine kind_toNum b ?_
            rw [← hk]
            exact toNum_kind a x hA
          rw [cmpNode_num R p a b x y hig hA hB, cmpNode_num R p b a y x hig hB hA]
          by_cases hw : numWithin (resolveTol R.abs_tol_fields R.abs_tol p)
              (resolveTol R.rel_tol_fields R.rel_tol p) x y
          · rw [if_pos hw, if_pos ((numWithin_symm _ _ x y).mp hw)]
          · rw [if_neg hw, if_neg (fun h2 => hw ((numWithin_symm _ _ y x).mp h2))]
        | none =>
          cases a with
          | vInt n => simp [toNum] at hA
          | vFloat q => simp [toNum] at hA
          | vMap fs =>
            cases b with
            | vMap gs =>
              rw [cmpNode_map R p fs gs hig, cmpNode_map R p gs fs hig]
              show (keySetEq (keysOfF fs) (keysOfF gs) && (cmpFields R p gs fs).1) =
                  (keySetEq (keysOfF gs) (keysOfF fs) && (cmpFields R p fs gs).1)
              obtain ⟨hndf, hwff⟩ := wf_vMap hwa
              obtain ⟨hndg, hwfg⟩ := wf_vMap hwb
              by_cases hks : keySetEq (keysOfF fs) (keysOfF gs) = true
              · have hks2 : keySetEq (keysOfF gs) (keysOfF fs) = true := by
                  rw [keySetEq_symm]
                  exact hks
                rw [hks, hks2, Bool.true_and, Bool.true_and]
                have e1 : (cmpFields R p gs fs).1 =
                    ((toListF fs).filter (fun kv => containsKeyF gs kv.1)).all
                      (fun kv => (cmpNode R (p ++ [Seg.field kv.1]) kv.2 (lookupDF gs kv.1)).1) := by
                  rw [cmpFields_spec]
                have e2 : (cmpFields R p fs gs).1 =
                    ((toListF gs).filter (fun kv => containsKeyF fs kv.1)).all
                      (fun kv => (cmpNode R (p ++ [Seg.field kv.1]) kv.2 (lookupDF fs kv.1)).1) := by
                  rw [cmpFields_spec]
                rw [e1, e2]
                refine boolEqOfIff ?_
                rw [List.all_eq_true, List.all_eq_true]
                have s3 : vsize (Value.vMap fs) = fsize fs + 1 := by rw [vsize]
                have s4 : vsize (Value.vMap gs) = fsize gs + 1 := by rw [vsize]
                constructor
                · intro hL kv hkv
                  obtain ⟨k, v⟩ := kv
                  rw [List.mem_filter] at hkv
                  have hwmem : (k, lookupDF fs k) ∈ toListF fs := lookupDF_mem fs k hkv.2
                  have hkgs : containsKeyF gs k = true := mem_containsKeyF hkv.1
                  have hL2 := hL (k, lookupDF fs k) (List.mem_filter.mpr ⟨hwmem, hkgs⟩)
                  have hgv : lookupDF gs k = v := lookupDF_eq gs hndg hkv.1
                  show (cmpNode R (p ++ [Seg.field k]) v (lookupDF fs k)).1 = true
                  rw [hgv] at hL2
                  have hsym : (cmpNode R (p ++ [Seg.field k]) (lookupDF fs k) v).1 =
                      (cmpNode R (p ++ [Seg.field k]) v (lookupDF fs k)).1 := by
                    refine ih (lookupDF fs k) v ?_ ?_ ?_ R (p ++ [Seg.field k])
                    · have s1 := mem_fsize fs hwmem
                      have s2 := mem_fsize gs hkv.1
                      omega
                    · exact wfFields_mem fs hwff hwmem
                    · exact wfFields_mem gs hwfg hkv.1
                  rw [← hsym]
                  exact hL2
                · intro hL kv hkv
                  obtain ⟨k, v⟩ := kv
                  rw [List.mem_filter] at hkv
                  have hwmem : (k, lookupDF gs k) ∈ toListF gs := lookupDF_mem gs k hkv.2
                  have hkfs : containsKeyF fs k = true := mem_containsKeyF hkv.1
                  have hL2 := hL (k, lookupDF gs k) (List.mem_filter.mpr ⟨hwmem, hkfs⟩)
                  have hfv : lookupDF fs k = v := lookupDF_eq fs hndf hkv.1
                  show (cmpNode R (p ++ [Seg.field k]) v (lookupDF gs k)).1 = true
                  rw [hfv] at hL2
                  have hsym : (cmpNode R (p ++ [Seg.field k]) v (lookupDF gs k)).1 =
                      (cmpNode R (p ++ [Seg.field k]) (lookupDF gs k) v).1 := by
                    refine ih v (lookupDF gs k) ?_ ?_ ?_ R (p ++ [Seg.field k])
                    · have s1 := mem_fsize fs hkv.1
                      have s2 := mem_fsize gs hwmem
                      omega
                    · exact wfFields_mem fs hwff hkv.1
                    · exact wfFields_mem gs hwfg hwmem
                  rw [hsym]
                  exact hL2
              · rw [Bool.not_eq_true] at hks
                have hks2 : keySetEq (keysOfF gs) (keysOfF fs) = false := by
                  rw [keySetEq_symm]
                  exact hks
                rw [hks, hks2, Bool.false_and, Bool.false_and]
            | vSeq ys => exact absurd hk (by simp [kindOf])
            | vInt m => exact absurd hk (by simp [kindOf])
            | vFloat q => exact absurd hk (by simp [kindOf])
            | vBool c => exact absurd hk (by simp [kindOf])
            | vStr t => exact absurd hk (by simp [kindOf])
            | vNull => exact absurd hk (by simp [kindOf])
          | vSeq xs =>
            cases b with
            | vSeq ys =>
              rw [cmpNode_seq R p xs ys hig, cmpNode_seq R p ys xs hig]
              by_cases hlen : elen xs = elen ys
              · rw [if_pos hlen, if_pos hlen.symm]
                have hwfx : wfElems xs = true := by rw [wf] at hwa; exact hwa
                have hwfy : wfElems ys = true := by rw [wf] at hwb; exact hwb
                refine cmpElems_symm_of R p xs ys 0 ?_
                intro x hx y hy q
                refine ih x y ?_ (wfElems_mem xs hwfx hx) (wfElems_mem ys hwfy hy) R q
                have s1 := mem_esize xs hx
                have s2 := mem_esize ys hy
                have s3 : vsize (Value.vSeq xs) = esize xs + 1 := by rw [vsize]
                have s4 : vsize (Value.vSeq ys) = esize ys + 1 := by rw [vsize]
                omega
              · rw [if_neg hlen, if_neg (fun h2 => hlen h2.symm)]
            | vMap gs => exact absurd hk (by simp [kindOf])
            | vInt m => exact absurd hk (by simp [kindOf])
            | vFloat q => exact absurd hk (by simp [kindOf])
            | vBool c => exact absurd hk (by simp [kindOf])
            | vStr t => exact absurd hk (by simp [kindOf])
            | vNull => exact absurd hk (by simp [kindOf])
          | vBool c =>
            cases b with
            | vBool d =>
              rw [cmpNode_bool R p c d hig, cmpNode_bool R p d c hig]
              by_cases hcd : (c == d) = true
              · rw [if_pos hcd, if_pos (by rw [← beqSymm c d]; exact hcd)]
              · rw [if_neg hcd, if_neg (fun h2 => hcd (by rw [beqSymm c d]; exact h2))]
            | vMap gs => exact absurd hk (by simp [kindOf])
            | vSeq ys => exact absurd hk (by simp [kindOf])
            | vInt m => exact absurd hk (by simp [kindOf])
            | vFloat q => exact absurd hk (by simp [kindOf])
            | vStr t => exact absurd hk (by simp [kindOf])
            | vNull => exact absurd hk (by simp [kindOf])
          | vStr t =>
            cases b with
            | vStr u =>
              rw [cmpNode_str R p t u hig, cmpNode_str R p u t hig]
              by_cases htu : (t == u) = true
              · rw [if_pos htu, if_pos (by rw [← beqSymm t u]; exact htu)]
              · rw [if_neg htu, if_neg (fun h2 => htu (by rw [beqSymm t u]; exact h2))]
            | vMap gs => exact absurd hk (by simp [kindOf])
            | vSeq ys => exact absurd hk (by simp [kindOf])
            | vInt m => exact absurd hk (by simp [kindOf])
            | vFloat q => exact absurd hk (by simp [kindOf])
            | vBool c => exact absurd hk (by simp [kindOf])
            | vNull => exact absurd hk (by simp [kindOf])
          | vNull =>
            cases b with
            | vNull => rfl
            | vMap gs => exact absurd hk (by simp [kindOf])
            | vSeq ys => exact absurd hk (by simp [kindOf])
            | vInt m => exact absurd hk (by simp [kindOf])
            | vFloat q => exact absurd hk (by simp [kindOf])
            | vBool c => exact absurd hk (by simp [kindOf])
            | vStr u => exact absurd hk (by simp [kindOf])

theorem lastFieldName_append (q : List Seg) (n : String) :
    lastFieldName (q ++ [Seg.field n]) = some n := by
  induction q with
  | nil => rfl
  | cons x rest ih =>
    have hne : rest ++ [Seg.field n] ≠ [] := by simp
    obtain ⟨y, ys, hy⟩ := List.exists_cons_of_ne_nil hne
    have step : lastFieldName (x :: y :: ys) = lastFieldName (y :: ys) := by
      simp [lastFieldName]
    rw [List.cons_append, hy, step, ← hy, ih]

/-! Tolerance resolution and top-level lemmas. -/

theorem resolveTol_global (fields : List (String × Rat)) (g : Rat) (p : List Seg)
    (h : ∀ kv ∈ fields, matchesStr kv.1 p = false) : resolveTol fields g p = g := by
  rw [resolveTol]
  have hnone : fields.find? (fun kv => matchesStr kv.1 p) = none := by
    rw [List.find?_eq_none]
    intro kv hkv
    rw [h kv hkv]
    simp
  rw [hnone]

theorem resolveTol_first (pre post : List (String × Rat)) (pat : String) (t g : Rat)
    (p : List Seg) (hpre : ∀ kv ∈ pre, matchesStr kv.1 p = false)
    (hpat : matchesStr pat p = true) : resolveTol (pre ++ (pat, t) :: post) g p = t := by
  rw [resolveTol]
  have hsome : (pre ++ (pat, t) :: post).find? (fun kv => matchesStr kv.1 p) = some (pat, t) := by
    induction pre with
    | nil =>
      rw [List.nil_append]
      exact List.find?_cons_of_pos _ hpat
    | cons q pre2 ih =>
      have hq : ¬ ((fun kv => matchesStr kv.1 p) q = true) := by
        have := hpre q (by simp)
        simp [this]
      have hstep : (q :: (pre2 ++ (pat, t) :: post)).find? (fun kv => matchesStr kv.1 p) =
          (pre2 ++ (pat, t) :: post).find? (fun kv => matchesStr kv.1 p) :=
        List.find?_cons_of_neg _ hq
      rw [List.cons_append, hstep]
      exact ih (fun kv hkv => hpre kv (by simp [hkv]))
  rw [hsome]

theorem compare_invalid (R : Rules) (s : String)
    (hf : (allPatterns R).find? (fun q => !validPattern q) = some s) :
    ∀ a b, compare_dicts a b R = Except.error (invalidMsg s) := by
  intro a b
  unfold compare_dicts
  rw [hf]

theorem ignoredAt_of (R : Rules) (p : List Seg)
    (h : (∃ n, lastFieldName p = some n ∧ containsStr n R.ignore_fields = true) ∨
         (∃ s, s ∈ R.ignore_paths ∧ matchesStr s p = true)) : ignoredAt R p = true := by
  rw [ignoredAt, Bool.or_eq_true]
  rcases h with ⟨n, hn, hc⟩ | ⟨s, hs, hm⟩
  · left
    rw [hn]
    exact hc
  · right
    rw [List.any_eq_true]
    exact ⟨s, hs, hm⟩

/-! The ten claims. -/

/-- Claim C1: for every pair of input values and every rule set,
`compare_dicts` validates every pattern supplied in `ignore_paths` and in the
keys of `abs_tol_fields` and `rel_tol_fields` before performing any
comparison work: whenever some supplied pattern is invalid, there is an
offending supplied pattern (itself invalid) such that for all inputs alike
the call returns the `InvalidPatternError` message naming it — the outcome is
fixed by the rule set alone, so it precedes any inspection of the values, and
the error is surfaced to the caller, not swallowed. -/
theorem claim1_invalid_pattern_fails_fast (R : Rules)
    (h : ∃ s ∈ allPatterns R, validPattern s = false) :
    ∃ s, s ∈ allPatterns R ∧ validPattern s = false ∧
      ∀ a b, compare_dicts a b R = Except.error (invalidMsg s) := by
  have hex : ∃ s ∈ allPatterns R, (fun q => !validPattern q) s = true := by
    obtain ⟨s, hs, hv⟩ := h
    exact ⟨s, hs, by simp [hv]⟩
  obtain ⟨s, hf⟩ := Option.isSome_iff_exists.mp (List.find?_isSome.mpr hex)
  refine ⟨s, List.mem_of_find?_eq_some hf, ?_, compare_invalid R s hf⟩
  have hps := List.find?_some hf
  simpa using hps

/-- Rule set with one invalid ignore pattern, for the claim C1 witness. -/
def rulesBad : Rules := { defaultRules with ignore_paths := ["user.age"] }

theorem claim1_witness :
    ∃ s, s ∈ allPatterns rulesBad ∧ validPattern s = false ∧
      ∀ a b, compare_dicts a b rulesBad = Except.error (invalidMsg s) :=
  claim1_invalid_pattern_fails_fast rulesBad ⟨"user.age", by decide, by decide⟩

/-- Claim C2: `validate_pattern` rejects, with the error message naming the
offending pattern, every pattern lacking the leading root marker and every
pattern containing a filter, slice or union bracket expression — any such
expression contains a question mark, colon or comma, and no valid pattern
contains any of those characters — and it accepts every plain field chain,
indexed chain, wildcard-index pattern and recursive-descent pattern: the
rendering of any list of well-formed segments validates (and parses back to
those very segments). -/
theorem claim2_validate_pattern :
    (∀ s : String, s.data.head? ≠ some '$' → validate_pattern s = Except.error (invalidMsg s))
    ∧ (∀ s : String, '?' ∈ s.data → validate_pattern s = Except.error (invalidMsg s))
    ∧ (∀ s : String, ':' ∈ s.data → validate_pattern s = Except.error (invalidMsg s))
    ∧ (∀ s : String, ',' ∈ s.data → validate_pattern s = Except.error (invalidMsg s))
    ∧ (∀ s : String, ∃ pre, invalidMsg s = pre ++ s)
    ∧ (∀ ps : List Seg, (∀ sg ∈ ps, segOk sg = true) →
        validate_pattern (renderPattern ps) = Except.ok ()) := by
  have reject : ∀ s : String, validPattern s = false →
      validate_pattern s = Except.error (invalidMsg s) := by
    intro s hv
    rw [validate_pattern, if_neg (by simp [hv])]
  refine ⟨?_, ?_, ?_, ?_, ?_, ?_⟩
  · intro s hs
    refine reject s ?_
    cases hv : validPattern s with
    | false => rfl
    | true =>
      obtain ⟨rest, hdata, -⟩ := validPattern_chars hv
      refine absurd ?_ hs
      rw [hdata, List.head?_cons]
  · intro s hs
    exact reject s (validPattern_false hs (by decide) (by decide))
  · intro s hs
    exact reject s (validPattern_false hs (by decide) (by decide))
  · intro s hs
    exact reject s (validPattern_false hs (by decide) (by decide))
  · intro s
    exact ⟨"Invalid JSONPath-like pattern: ", rfl⟩
  · intro ps hok
    rw [validate_pattern, if_pos (by rw [validPattern, validPattern_render ps hok]; rfl)]

theorem claim2_witness :
    validate_pattern (renderPattern [Seg.field "a", Seg.field "b", Seg.field "c"]) = Except.ok ()
    ∧ validate_pattern "$.items[0:3]" = Except.error (invalidMsg "$.items[0:3]") :=
  ⟨claim2_validate_pattern.2.2.2.2.2 [Seg.field "a", Seg.field "b", Seg.field "c"] (by decide),
   claim2_validate_pattern.2.2.1 "$.items[0:3]" (by decide)⟩

/-- Claim C3: for every numeric leaf, the effective absolute and relative
tolerances are resolved by the first pattern in iteration order of the
override maps that matches the concrete path, falling back to the global
tolerance when no pattern matches; and the two numbers compare equal exactly
when the absolute difference is at most the larger of the effective absolute
tolerance and the effective relative tolerance scaled by the larger
magnitude — in particular a difference exactly equal to the effective
threshold is accepted, the comparison being at-most rather than below. -/
theorem claim3_tolerance_resolution :
    (∀ (fields : List (String × Rat)) (g : Rat) (p : List Seg),
      (∀ kv ∈ fields, matchesStr kv.1 p = false) → resolveTol fields g p = g)
    ∧ (∀ (pre post : List (String × Rat)) (pat : String) (t g : Rat) (p : List Seg),
        (∀ kv ∈ pre, matchesStr kv.1 p = false) → matchesStr pat p = true →
        resolveTol (pre ++ (pat, t) :: post) g p = t)
    ∧ (∀ (R : Rules) (p : List Seg) (va vb : Value) (x y : Rat),
        ignoredAt R p = false → toNum va = some x → toNum vb = some y →
        ((cmpNode R p va vb).1 = true ↔
          |x - y| ≤ max (resolveTol R.abs_tol_fields R.abs_tol p)
            (resolveTol R.rel_tol_fields R.rel_tol p * max |x| |y|)))
    ∧ (∀ (R : Rules) (p : List Seg) (va vb : Value) (x y : Rat),
        ignoredAt R p = false → toNum va = some x → toNum vb = some y →
        |x - y| = max (resolveTol R.abs_tol_fields R.abs_tol p)
          (resolveTol R.rel_tol_fields R.rel_tol p * max |x| |y|) →
        (cmpNode R p va vb).1 = true) := by
  have main : ∀ (R : Rules) (p : List Seg) (va vb : Value) (x y : Rat),
      ignoredAt R p = false → toNum va = some x → toNum vb = some y →
      ((cmpNode R p va vb).1 = true ↔
        |x - y| ≤ max (resolveTol R.abs_tol_fields R.abs_tol p)
          (resolveTol R.rel_tol_fields R.rel_tol p * max |x| |y|)) := by
    intro R p va vb x y hig hx hy
    rw [cmpNode_num R p va vb x y hig hx hy]
    by_cases hw : numWithin (resolveTol R.abs_tol_fields R.abs_tol p)
        (resolveTol R.rel_tol_fields R.rel_tol p) x y
    · rw [if_pos hw]
      exact ⟨fun _ => hw, fun _ => rfl⟩
    · rw [if_neg hw]
      constructor
      · intro hfalse
        simp at hfalse
      · intro hle
        exact absurd hle hw
  refine ⟨resolveTol_global, ?_, main, ?_⟩
  · intro pre post pat t g p hpre hpat
    exact resolveTol_first pre post pat t g p hpre hpat
  · intro R p va vb x y hig hx hy heq
    exact (main R p va vb x y hig hx hy).mpr (le_of_eq heq)

theorem claim3_witness :
    (cmpNode defaultRules [Seg.field "x"] (Value.vInt 1) (Value.vInt 1)).1 = true ↔
      |(1 : Rat) - 1| ≤
        max (resolveTol defaultRules.abs_tol_fields defaultRules.abs_tol [Seg.field "x"])
          (resolveTol defaultRules.rel_tol_fields defaultRules.rel_tol [Seg.field "x"] *
            max |(1 : Rat)| |(1 : Rat)|) :=
  claim3_tolerance_resolution.2.2.1 defaultRules [Seg.field "x"]
    (Value.vInt 1) (Value.vInt 1) 1 1 (by decide) rfl rfl

/-- Claim C4: for Mapping nodes, a key-set difference makes the node verdict
false; the comparator recurses into every key of the intersection with the
path extended by a dot and the key, visiting all such keys even after one
yields a mismatch — the node trace collects the traces of all visited keys —
and the node verdict is the conjunction of the key-set equality check and the
verdicts of all visited keys. -/
theorem claim4_mapping_comparison (R : Rules) (p : List Seg) (fs gs : Fields)
    (hig : ignoredAt R p = false) :
    (keySetEq (keysOfF fs) (keysOfF gs) = false →
      (cmpNode R p (Value.vMap fs) (Value.vMap gs)).1 = false)
    ∧ (cmpNode R p (Value.vMap fs) (Value.vMap gs)).1 =
        (keySetEq (keysOfF fs) (keysOfF gs) &&
          ((toListF fs).filter (fun kv => containsKeyF gs kv.1)).all
            (fun kv => (cmpNode R (p ++ [Seg.field kv.1]) kv.2 (lookupDF gs kv.1)).1))
    ∧ (cmpNode R p (Value.vMap fs) (Value.vMap gs)).2 =
        (if keySetEq (keysOfF fs) (keysOfF gs) then [] else [keysMsg p fs gs]) ++
          (((toListF fs).filter (fun kv => containsKeyF gs kv.1)).map
            (fun kv => (cmpNode R (p ++ [Seg.field kv.1]) kv.2 (lookupDF gs kv.1)).2)).flatten
    ∧ (∀ k, renderPath (p ++ [Seg.field k]) = renderPath p ++ ("." ++ k)) := by
  have e1 : (cmpFields R p gs fs).1 =
      ((toListF fs).filter (fun kv => containsKeyF gs kv.1)).all
        (fun kv => (cmpNode R (p ++ [Seg.field kv.1]) kv.2 (lookupDF gs kv.1)).1) := by
    rw [cmpFields_spec]
  have e2 : (cmpFields R p gs fs).2 =
      (((toListF fs).filter (fun kv => containsKeyF gs kv.1)).map
        (fun kv => (cmpNode R (p ++ [Seg.field kv.1]) kv.2 (lookupDF gs kv.1)).2)).flatten := by
    rw [cmpFields_spec]
  refine ⟨?_, ?_, ?_, renderPath_field p⟩
  · intro hks
    rw [cmpNode_map R p fs gs hig]
    show (keySetEq (keysOfF fs) (keysOfF gs) && (cmpFields R p gs fs).1) = false
    rw [hks, Bool.false_and]
  · rw [cmpNode_map R p fs gs hig]
    show (keySetEq (keysOfF fs) (keysOfF gs) && (cmpFields R p gs fs).1) = _
    rw [e1]
  · rw [cmpNode_map R p fs gs hig]
    show (if keySetEq (keysOfF fs) (keysOfF gs) then [] else [keysMsg p fs gs])
        ++ (cmpFields R p gs fs).2 = _
    rw [e2]

/-- Mapping with one string entry, for the claim C4 witness. -/
def fsW : Fields := fieldsOf [("k", Value.vStr "v")]

theorem claim4_witness :
    (cmpNode defaultRules [] (Value.vMap fsW) (Value.vMap fsW)).1 =
      (keySetEq (keysOfF fsW) (keysOfF fsW) &&
        ((toListF fsW).filter (fun kv => containsKeyF fsW kv.1)).all
          (fun kv => (cmpNode defaultRules ([] ++ [Seg.field kv.1]) kv.2
            (lookupDF fsW kv.1)).1)) :=
  (claim4_mapping_comparison defaultRules [] fsW fsW (by decide)).2.1

/-- Claim C5: for Sequence nodes, a length difference makes the verdict false
with no element-wise descent — the node result is exactly the length-mismatch
outcome, its trace free of any element trace; under equal lengths the
comparator recurses pairwise by index through all indices, the verdict being
the conjunction of all element verdicts and the trace the concatenation of
all element traces. -/
theorem claim5_sequence_comparison (R : Rules) (p : List Seg) (xs ys : Elems)
    (hig : ignoredAt R p = false) :
    (elen xs ≠ elen ys →
      cmpNode R p (Value.vSeq xs) (Value.vSeq ys) = (false, [lenMsg p (elen xs) (elen ys)]))
    ∧ (elen xs = elen ys →
        (cmpNode R p (Value.vSeq xs) (Value.vSeq ys)).1 =
          (idxPairs 0 (toListE xs) (toListE ys)).all
            (fun t => (cmpNode R (p ++ [Seg.index t.1]) t.2.1 t.2.2).1)
        ∧ (cmpNode R p (Value.vSeq xs) (Value.vSeq ys)).2 =
          ((idxPairs 0 (toListE xs) (toListE ys)).map
            (fun t => (cmpNode R (p ++ [Seg.index t.1]) t.2.1 t.2.2).2)).flatten) := by
  constructor
  · intro hne
    rw [cmpNode_seq R p xs ys hig, if_neg hne]
  · intro hlen
    rw [cmpNode_seq R p xs ys hig, if_pos hlen]
    exact ⟨by rw [cmpElems_spec], by rw [cmpElems_spec]⟩

theorem claim5_witness :
    cmpNode defaultRules [] (Value.vSeq (elemsOf [Value.vStr "a"])) (Value.vSeq (elemsOf [])) =
      (false, [lenMsg [] (elen (elemsOf [Value.vStr "a"])) (elen (elemsOf []))]) :=
  (claim5_sequence_comparison defaultRules [] (elemsOf [Value.vStr "a"]) (elemsOf [])
    (by decide)).1 (by decide)

/-- Claim C6: values of different kinds — where the two numeric constructors
count as the same kind, and any other combination of kinds as different —
compare to the exact mismatch outcome: verdict false and a single
type-mismatch trace message naming both kinds, with no descent into either
value; in particular a string against a number, and a sequence against a
mapping, each yield false. -/
theorem claim6_type_mismatch :
    (∀ (R : Rules) (p : List Seg) (va vb : Value), ignoredAt R p = false →
      kindOf va ≠ kindOf vb → cmpNode R p va vb = (false, [typeMsg p va vb]))
    ∧ (∀ (n : Int) (q : Rat), kindOf (Value.vInt n) = kindOf (Value.vFloat q))
    ∧ (cmpNode defaultRules [Seg.field "id"] (Value.vStr "123") (Value.vInt 123)).1 = false
    ∧ (cmpNode defaultRules [Seg.field "data"] (Value.vSeq (elemsOf [Value.vInt 1]))
        (Value.vMap (fieldsOf [("items", Value.vInt 1)]))).1 = false := by
  exact ⟨cmpNode_type, fun n q => rfl, by decide, by decide⟩

theorem claim6_witness :
    cmpNode defaultRules [Seg.field "id"] (Value.vStr "x") (Value.vBool true) =
      (false, [typeMsg [Seg.field "id"] (Value.vStr "x") (Value.vBool true)]) :=
  claim6_type_mismatch.1 defaultRules [Seg.field "id"] (Value.vStr "x") (Value.vBool true)
    (by decide) (by decide)

/-- Claim C7: a leading recursive-descent segment matches its name occurring
as a field segment at any depth of a concrete path — not only at the position
written in the pattern — with any remaining pattern segments continuing to
match from that depth; when no pattern segments remain, any path ending in,
or passing through, the named field matches; consequently comparing the
nested records that differ only at the field z, with the descent pattern for
z ignored, returns true. -/
theorem claim7_recursive_descent :
    (∀ (n : String) (ps cs : List Seg), concretePath cs = true →
      (segMatches (Seg.descent n :: ps) cs = true ↔
        ∃ pre rest, cs = pre ++ Seg.field n :: rest ∧
          (ps = [] ∨ segMatches ps rest = true)))
    ∧ (∀ (n : String) (cs : List Seg), concretePath cs = true →
        (segMatches [Seg.descent n] cs = true ↔
          ∃ pre rest, cs = pre ++ Seg.field n :: rest))
    ∧ matchesStr "$..z" [Seg.field "z", Seg.field "w"] = true
    ∧ compare_dicts
        (Value.vMap (fieldsOf [("a", Value.vMap (fieldsOf
          [("b", Value.vMap (fieldsOf [("z", Value.vInt 1)]))]))]))
        (Value.vMap (fieldsOf [("a", Value.vMap (fieldsOf
          [("b", Value.vMap (fieldsOf [("z", Value.vInt 2)]))]))]))
        { defaultRules with ignore_paths := ["$..z"] } = Except.ok true := by
  refine ⟨fun n ps cs hc => segMatches_descent_split n cs ps hc,
    fun n cs hc => segMatches_descent_single n cs hc, by decide, rfl⟩

theorem claim7_witness :
    segMatches [Seg.descent "z"] [Seg.field "z", Seg.field "w"] = true :=
  (claim7_recursive_descent.2.1 "z" [Seg.field "z", Seg.field "w"] (by decide)).mpr
    ⟨[], [Seg.field "w"], by decide⟩

/-- Claim C8: a node whose concrete path's final field name is in the ignore
set — matched by exact equality against the last segment, at any depth — or
whose path matches some ignore pattern, is skipped: its result is exactly the
ignored outcome, verdict true with the single ignore trace message, whatever
the two subtrees hold, so differences inside the ignored subtree cannot
affect the returned boolean; and the final field name of any path ending in a
field segment is that segment's name, at any depth. -/
theorem claim8_ignore_rules :
    (∀ (R : Rules) (p : List Seg) (va vb : Value),
      ((∃ n, lastFieldName p = some n ∧ containsStr n R.ignore_fields = true) ∨
       (∃ s, s ∈ R.ignore_paths ∧ matchesStr s p = true)) →
      cmpNode R p va vb = (true, [ignoredMsg p]))
    ∧ (∀ (q : List Seg) (n : String), lastFieldName (q ++ [Seg.field n]) = some n) := by
  refine ⟨?_, lastFieldName_append⟩
  intro R p va vb h
  exact cmpNode_ignored R p va vb (ignoredAt_of R p h)

theorem claim8_witness :
    cmpNode { defaultRules with ignore_fields := ["timestamp"] }
      [Seg.field "a", Seg.field "timestamp"] (Value.vStr "T1") (Value.vStr "T2") =
      (true, [ignoredMsg [Seg.field "a", Seg.field "timestamp"]]) :=
  claim8_ignore_rules.1 { defaultRules with ignore_fields := ["timestamp"] }
    [Seg.field "a", Seg.field "timestamp"] (Value.vStr "T1") (Value.vStr "T2")
    (Or.inl ⟨"timestamp", by decide, by decide⟩)

/-- Claim C9: comparing any well-formed value with itself under the default
rule set — empty rule collections and zero tolerances — returns true. -/
theorem claim9_reflexivity (x : Value) (h : wf x = true) :
    compare_dicts x x defaultRules = Except.ok true := by
  show Except.ok (cmpNode defaultRules [] x x).1 = Except.ok true
  rw [cmpNode_refl_aux (vsize x) x (le_refl _) h []]

/-- Nested value without numeric leaves, for the claim C9 witness. -/
def valW : Value :=
  Value.vMap (fieldsOf [("name", Value.vStr "Alice"),
    ("tags", Value.vSeq (elemsOf [Value.vStr "x", Value.vNull])),
    ("ok", Value.vBool true)])

theorem claim9_witness : compare_dicts valW valW defaultRules = Except.ok true :=
  claim9_reflexivity valW (by decide)

/-- Claim C10: for well-formed inputs `compare_dicts` is symmetric: its
result on a pair of values equals its result on the swapped pair, under every
rule set — the model's rules never special-case left versus right. -/
theorem claim10_symmetry (a b : Value) (R : Rules) (ha : wf a = true) (hb : wf b = true) :
    compare_dicts a b R = compare_dicts b a R := by
  unfold compare_dicts
  cases hf : (allPatterns R).find? (fun s => !validPattern s) with
  | some s => rfl
  | none =>
    show Except.ok (cmpNode R [] a b).1 = Except.ok (cmpNode R [] b a).1
    rw [cmpNode_symm_aux (vsize a + vsize b) a b (le_refl _) ha hb R []]

/-- Two mappings differing in keys and values, for the claim C10 witness. -/
def valA : Value := Value.vMap (fieldsOf [("x", Value.vStr "1"), ("y", Value.vBool true)])

/-- Second mapping for the claim C10 witness. -/
def valB : Value := Value.vMap (fieldsOf [("x", Value.vStr "2")])

theorem claim10_witness :
    compare_dicts valA valB defaultRules = compare_dicts valB valA defaultRules :=
  claim10_symmetry valA valB defaultRules (by decide) (by decide)

end Dictlens
